import Mathlib

/-!
Verification of the DRTS hierarchical-scheduling analysis and simulation
repository.  The repository analyses two-level hierarchical real-time
scheduling: tasks run inside components (periodic servers with a budget),
components run on cores.  This file gives a shallow embedding of

  * `exercise/simulator.py`  — response-time analysis (RTA),
  * `project/fixed_budget_sch.py` — demand/supply feasibility of a component,
  * `project/computed_budgets_sch.py` — BDR interface search and the
    core-level server test,
  * `project/simulator.py` — the event-driven hierarchical simulator,

and proves or refutes the frozen behavioural claims about them.  Python
floats are embedded as exact rationals (ℚ); Python ints as ℤ/ℕ.  Bool
conditions of the source become decidable propositions.
-/

namespace DRTS

/-! ## Generic list helpers used by the embedding -/

/-- Filter by a decidable proposition (Python list comprehension with an
`if` clause). -/
def filterP {α : Type} (p : α → Prop) [DecidablePred p] : List α → List α
  | [] => []
  | x :: xs => if p x then x :: filterP p xs else filterP p xs

/-- First element of the list attaining the minimal key: the behaviour of
Python's `min(xs, key=...)` (which returns the first minimum). -/
def minByKey {α κ : Type} [LinearOrder κ] (key : α → κ) : List α → Option α
  | [] => none
  | x :: xs =>
    match minByKey key xs with
    | none => some x
    | some y => if key y < key x then some y else some x

/-- Python `int(q)`: truncation toward zero. -/
def pyInt (q : ℚ) : ℤ := if 0 ≤ q then ⌊q⌋ else -⌊-q⌋

/-- Python `math.lcm(*xs)` over the `int()` of a list (`math.lcm()` with no
arguments is 1). -/
def pyLcmInt (l : List ℤ) : ℤ := l.foldl (fun a b => (Int.lcm a b : ℤ)) 1

/-- Python `round(x)` to an integer: round-half-to-even, as for exact
(`fractions.Fraction`-like) values. -/
def pyRoundInt (q : ℚ) : ℤ :=
  let f := ⌊q⌋
  let r := q - f
  if r < 1/2 then f else if 1/2 < r then f + 1 else if f % 2 = 0 then f else f + 1

/-- Python `round(x, 3)` on an exact value. -/
def pyRound3 (q : ℚ) : ℚ := (pyRoundInt (q * 1000) : ℚ) / 1000

/-! ## `exercise/simulator.py` — response-time analysis

Tasks are loaded with integer fields (`load_tasks` applies `int(...)` to
every numeric column). -/

structure ExTask where
  name : String
  bcet : ℤ
  wcet : ℤ
  period : ℤ
  deadline : ℤ
  priority : ℤ
deriving DecidableEq

/-- `sorted(tasks, key=lambda x: x["Priority"])` — a stable sort by the
priority number (lower number = higher priority). -/
def sortByPrio (l : List ExTask) : List ExTask :=
  l.insertionSort (fun a b => a.priority ≤ b.priority)

/-- Interference of the tasks `hp` on a response-time value `R`:
`sum(math.ceil(R / T_j) * C_j)` (Python `/` is exact division here,
embedded in ℚ). -/
def interference (hp : List ExTask) (R : ℤ) : ℤ :=
  (hp.map (fun j => ⌈(R : ℚ) / (j.period : ℚ)⌉ * j.wcet)).sum

/-- The `while R != R_prev` loop of `response_time_analysis`, with explicit
fuel (the Python loop is unbounded; the fuel is shown sufficient for
positive parameters).  `some (some R)` = converged, `some none` = the
iterate exceeded the deadline (task unschedulable), `none` = fuel ran out
(never happens for positive parameters). -/
def rtaLoop (hp : List ExTask) (C D : ℤ) : ℤ → ℤ → ℕ → Option (Option ℤ)
  | _, _, 0 => none
  | Rprev, R, fuel+1 =>
    if R = Rprev then some (some R)
    else
      let Rn := C + interference hp R
      if D < Rn then some none
      else rtaLoop hp C D R Rn fuel

/-- Fuel sufficient for `rtaLoop` on positive parameters (theorem
`rtaLoop_total`). -/
def rtaFuel (C D : ℤ) : ℕ := (D + 2 - C).toNat + 2

/-- RTA for one task given the tasks preceding it in the priority-sorted
order: starts from `R_prev = 0`, `R = C_i`. -/
def rtaFor (hp : List ExTask) (t : ExTask) : Option (Option ℤ) :=
  rtaLoop hp t.wcet t.deadline 0 t.wcet (rtaFuel t.wcet t.deadline)

/-- The mathematical iterate sequence of the RTA recurrence:
`R_0 = C`, `R_{k+1} = C + interference hp R_k`. -/
def rtaSeq (hp : List ExTask) (C : ℤ) : ℕ → ℤ
  | 0 => C
  | k+1 => C + interference hp (rtaSeq hp C k)

/-- The `for i, task in enumerate(sorted_tasks)` loop: `done` accumulates
the already-processed (earlier-in-sorted-order) tasks. -/
def rtaAll : List ExTask → List ExTask → List (String × Option (Option ℤ))
  | _, [] => []
  | done, t :: rest => (t.name, rtaFor done t) :: rtaAll (done ++ [t]) rest

/-- `response_time_analysis(tasks)` of `exercise/simulator.py`. -/
def response_time_analysis (tasks : List ExTask) : List (String × Option (Option ℤ)) :=
  rtaAll [] (sortByPrio tasks)

/-- Modelled from the claim's words: interference summed over the
strictly-higher-priority tasks only (strictly smaller priority number),
used to compare against what the code computes. -/
def strictInterference (all : List ExTask) (target : ExTask) (R : ℤ) : ℤ :=
  ((filterP (fun j => j.priority < target.priority) all).map
    (fun j => ⌈(R : ℚ) / (j.period : ℚ)⌉ * j.wcet)).sum

/-- Two tasks sharing priority 1: input for the C7 counterexample. -/
def rtaTieA : ExTask := { name := "A", bcet := 1, wcet := 1, period := 4, deadline := 4, priority := 1 }

/-- Second task of the priority tie. -/
def rtaTieB : ExTask := { name := "B", bcet := 1, wcet := 1, period := 4, deadline := 4, priority := 1 }

/-! ## Domain model of the `project` analyses (`models/`, `parser.py`)

`parse_task`/`parse_budget` read every numeric field with `float(...)`
(embedded as ℚ) and priorities with `int(...)` or `None`. -/

structure PTask where
  task_name : String
  wcet : ℚ
  period : ℚ
  component_id : String
  priority : Option ℤ
deriving DecidableEq

structure Component where
  component_id : String
  scheduler : String
  budget : ℚ
  period : ℚ
  core_id : String
  priority : Option ℤ
  tasks : List PTask
deriving DecidableEq

/-! ## `project/fixed_budget_sch.py` -/

/-- `dbf(tasks, t, speed)`: EDF demand bound,
`sum(floor(t // task.period) * (task.wcet / speed))`. -/
def dbf (tasks : List PTask) (t speed : ℚ) : ℚ :=
  (tasks.map (fun τ => (⌊t / τ.period⌋ : ℚ) * (τ.wcet / speed))).sum

/-- `sbf(component, t)`: supply bound with `alpha = Q/P`, `delta = P-Q`. -/
def sbf (c : Component) (t : ℚ) : ℚ :=
  max 0 ((c.budget / c.period) * (t - (c.period - c.budget)))

/-- The hyperperiod of `scheduling_points`:
`reduce(lambda a, b: a * b // gcd(a, b), periods, 1)` over the int task
periods (`//` is floor division). -/
def fb_hyper (c : Component) : ℤ :=
  (c.tasks.map (fun τ => pyInt τ.period)).foldl (fun a b => Int.fdiv (a * b) (Int.gcd a b)) 1

/-- `scheduling_points(component)` of `fixed_budget_sch.py`: all `k*P` and,
when `D = P - Q > 0`, all `k*D` up to the hyperperiod, as a sorted
deduplicated list (Python `sorted(set(pts))`). -/
def scheduling_points (c : Component) : List ℚ :=
  let P : ℤ := pyInt c.period
  let D : ℚ := (P : ℚ) - c.budget
  let ptsP : List ℚ :=
    (List.range (Int.fdiv (fb_hyper c) P).toNat).map (fun k : ℕ => ((k : ℚ) + 1) * (P : ℚ))
  let ptsD : List ℚ :=
    if 0 < D then (List.range (⌊(fb_hyper c : ℚ) / D⌋.toNat)).map (fun k : ℕ => ((k : ℚ) + 1) * D)
    else []
  ((ptsP ++ ptsD).dedup).insertionSort (· ≤ ·)

/-- The `for t in pts` loop of `is_component_schedulable`: first violating
point wins. -/
def fb_check (c : Component) (speed : ℚ) : List ℚ → Bool × Option ℚ
  | [] => (true, none)
  | t :: ts => if sbf c t < dbf c.tasks t speed then (false, some t) else fb_check c speed ts

/-- `is_component_schedulable(comp, speed)` of `fixed_budget_sch.py`. -/
def is_component_schedulable (c : Component) (speed : ℚ) : Bool × Option ℚ :=
  fb_check c speed (scheduling_points c)

/-- Component for the C5 counterexample: server period 4, budget 2, one
task of period 3. -/
def cex5 : Component :=
  { component_id := "C5", scheduler := "EDF", budget := 2, period := 4, core_id := "c1",
    priority := none, tasks := [{ task_name := "T5", wcet := 1, period := 3, component_id := "C5", priority := none }] }

/-- Component for the C9 counterexample: server period 4, budget 2, one
task of wcet 1 and period 4. -/
def cex9 : Component :=
  { component_id := "C9", scheduler := "EDF", budget := 2, period := 4, core_id := "c1",
    priority := none, tasks := [{ task_name := "T9", wcet := 1, period := 4, component_id := "C9", priority := none }] }

/-! ## `project/computed_budgets_sch.py` -/

/-- `dbf_edf(tasks, t, speed)`: `sum(floor(t / tau.period) * (tau.wcet / speed))`. -/
def dbf_edf (tasks : List PTask) (t speed : ℚ) : ℚ :=
  (tasks.map (fun τ => (⌊t / τ.period⌋ : ℚ) * (τ.wcet / speed))).sum

/-- `dbf_fps(tasks, t, target, speed)`: demand of `target` under RM,
counting jobs of every task with priority number at most the target's,
whose deadlines are at most `t`.  A missing priority on either side
contributes nothing (in Python a `None` target priority would raise). -/
def dbf_fps (tasks : List PTask) (t : ℚ) (target : PTask) (speed : ℚ) : ℚ :=
  (tasks.map (fun τ =>
    match τ.priority, target.priority with
    | some p, some q =>
      if p ≤ q then
        (if 0 < ⌊(t - τ.period) / τ.period⌋ + 1
         then ((⌊(t - τ.period) / τ.period⌋ + 1 : ℤ) : ℚ) * (τ.wcet / speed) else 0)
      else 0
    | _, _ => 0)).sum

/-- `sbf_bdr(alpha, delta, t) = max(0, alpha * (t - delta))`. -/
def sbf_bdr (alpha delta t : ℚ) : ℚ := max 0 (alpha * (t - delta))

/-- Critical points of `compute_bdr_interface`: all multiples of the task
periods up to their hyperperiod `H = lcm(*map(int, task_periods))`,
sorted and deduplicated. -/
def bdrPts (c : Component) : List ℚ :=
  let H := pyLcmInt (c.tasks.map (fun τ => pyInt τ.period))
  (((c.tasks.map (fun τ => τ.period)).flatMap
      (fun T => (List.range ⌊(H : ℚ) / T⌋.toNat).map (fun k : ℕ => ((k : ℚ) + 1) * T))).dedup).insertionSort (· ≤ ·)

/-- The demand used by the feasibility check of `compute_bdr_interface`:
`dbf_edf` under EDF, otherwise the max of `dbf_fps` over the component's
tasks (Python `max(...)`, so the component must own a task; the empty
default 0 is never exercised there). -/
def bdrDemand (c : Component) (speed t : ℚ) : ℚ :=
  if c.scheduler = "EDF" then dbf_edf c.tasks t speed
  else ((c.tasks.map (fun τ => dbf_fps c.tasks t τ speed)).max?.getD 0)

/-- The acceptance check of one `(alpha, delta)` candidate: no critical
point where demand exceeds supply (the code breaks out on
`demand > supply`). -/
def bdrFeasible (c : Component) (speed alpha delta : ℚ) : Prop :=
  ∀ t ∈ bdrPts c, bdrDemand c speed t ≤ sbf_bdr alpha delta t

instance (c : Component) (speed alpha delta : ℚ) : Decidable (bdrFeasible c speed alpha delta) :=
  List.decidableBAll _ _

/-- Scaled utilization, the starting point of the alpha scan:
`U = sum((tau.wcet / speed) / tau.period)`. -/
def bdrU (c : Component) (speed : ℚ) : ℚ :=
  (c.tasks.map (fun τ => (τ.wcet / speed) / τ.period)).sum

/-- Number of iterations of `alpha = U; while alpha <= 1.0: ...; alpha += alpha_step`
(for a positive step, as in the source's default 0.001). -/
def alphaCount (U astep : ℚ) : ℕ := if 1 < U then 0 else (⌊(1 - U) / astep⌋ + 1).toNat

/-- The alpha values the while loop visits, in order. -/
def alphaList (U astep : ℚ) : List ℚ :=
  (List.range (alphaCount U astep)).map (fun k : ℕ => U + (k : ℚ) * astep)

/-- Number of iterations of `delta = dmin; while delta <= max_pt: ...; delta += delta_step`. -/
def deltaCount (dmin maxpt dstep : ℚ) : ℕ :=
  if maxpt < dmin then 0 else (⌊(maxpt - dmin) / dstep⌋ + 1).toNat

/-- The delta values the inner while loop visits, in order. -/
def deltaList (dmin maxpt dstep : ℚ) : List ℚ :=
  (List.range (deltaCount dmin maxpt dstep)).map (fun j : ℕ => dmin + (j : ℚ) * dstep)

/-- The inner delta loop: first feasible delta, if any. -/
def deltaSearch (c : Component) (speed alpha : ℚ) : List ℚ → Option ℚ
  | [] => none
  | δ :: rest => if bdrFeasible c speed alpha δ then some δ else deltaSearch c speed alpha rest

/-- The outer alpha loop of `compute_bdr_interface`: on the first feasible
`(alpha, delta)` the code stores `best = (round(alpha, 3), round(delta, 3))`
and breaks out of both loops. -/
def bdrSearch (c : Component) (speed dstep maxpt : ℚ) : List ℚ → Option (ℚ × ℚ)
  | [] => none
  | alpha :: rest =>
    match deltaSearch c speed alpha
        (deltaList (max 0 (c.period - alpha * c.period)) maxpt dstep) with
    | some δ => some (pyRound3 alpha, pyRound3 δ)
    | none => bdrSearch c speed dstep maxpt rest

/-- `compute_bdr_interface(comp, speed, alpha_step, delta_step)`:
`none` models the `RuntimeError` raised when no interface is found.
`max_pt` is the task-period hyperperiod (the bound of the delta scan). -/
def compute_bdr_interface (c : Component) (speed astep dstep : ℚ) : Option (ℚ × ℚ) :=
  let U := bdrU c speed
  let maxpt : ℚ := (pyLcmInt (c.tasks.map (fun τ => pyInt τ.period)) : ℚ)
  bdrSearch c speed dstep maxpt (alphaList U astep)

/-- Modelled from the claim's words: the same two-level scan accepting the
first feasible pair, but returning that pair itself, without the source's
final `round(..., 3)` of both coordinates. -/
def bdrFirstSearch (c : Component) (speed dstep maxpt : ℚ) : List ℚ → Option (ℚ × ℚ)
  | [] => none
  | alpha :: rest =>
    match deltaSearch c speed alpha
        (deltaList (max 0 (c.period - alpha * c.period)) maxpt dstep) with
    | some δ => some (alpha, δ)
    | none => bdrFirstSearch c speed dstep maxpt rest

/-- Modelled from the claim's words: the first feasible `(alpha, delta)` in
the search order, unrounded. -/
def bdrFirstFeasiblePair (c : Component) (speed astep dstep : ℚ) : Option (ℚ × ℚ) :=
  let U := bdrU c speed
  let maxpt : ℚ := (pyLcmInt (c.tasks.map (fun τ => pyInt τ.period)) : ℚ)
  bdrFirstSearch c speed dstep maxpt (alphaList U astep)

/-- Component for the C3 counterexample: one task of wcet 1 and period 3
(utilization 1/3), server period 1. -/
def cex3 : Component :=
  { component_id := "C3", scheduler := "EDF", budget := 0, period := 1, core_id := "c1",
    priority := none, tasks := [{ task_name := "T3", wcet := 1, period := 3, component_id := "C3", priority := none }] }

/-- The claimed epsilon-tolerance of the fixed-budget test: a point is
reported as a violation only when demand exceeds supply by more than eps. -/
def fbEpsilonTolerant (eps : ℚ) : Prop :=
  ∀ (c : Component) (speed t0 : ℚ),
    is_component_schedulable c speed = (false, some t0) →
    eps < dbf c.tasks t0 speed - sbf c t0

/-- The claimed epsilon-tolerance of the BDR acceptance check: a candidate
is rejected only when some critical point's demand exceeds supply by more
than eps. -/
def bdrEpsilonTolerant (eps : ℚ) : Prop :=
  ∀ (c : Component) (speed alpha delta : ℚ),
    ¬ bdrFeasible c speed alpha delta →
    ∃ t ∈ bdrPts c, eps < bdrDemand c speed t - sbf_bdr alpha delta t

/-- Claim C9 as stated: some single small positive epsilon tolerance is
admitted by every demand-versus-supply comparison of both tests. -/
def ClaimC9 : Prop := ∃ eps : ℚ, 0 < eps ∧ fbEpsilonTolerant eps ∧ bdrEpsilonTolerant eps

/-! ## Core-level schedulability test (`computed_budgets_sch.py`) -/

/-- The throwaway `Srv` class of `is_schedulable_core`: wcet = Q,
period = P, deadline = D. -/
structure Srv where
  wcet : ℚ
  period : ℚ
  deadline : ℚ
deriving DecidableEq

/-- `scheduling_points(servers)` of `computed_budgets_sch.py`: multiples of
each server's period and deadline, `k` ranging up to `H // period`, sorted
and deduplicated. -/
def scheduling_points_srv (srvs : List Srv) : List ℚ :=
  let H := pyLcmInt (srvs.map (fun s => pyInt s.period))
  ((srvs.flatMap (fun s =>
      (List.range ⌊(H : ℚ) / s.period⌋.toNat).flatMap
        (fun k : ℕ => [((k : ℚ) + 1) * s.period, ((k : ℚ) + 1) * s.deadline]))).dedup).insertionSort (· ≤ ·)

/-- Cumulative demand `sum(floor(t / P_j) * Q_j)` of a list of servers. -/
def srvDemand (srvs : List Srv) (t : ℚ) : ℚ :=
  (srvs.map (fun s => (⌊t / s.period⌋ : ℚ) * s.wcet)).sum

/-- Servers sorted by period, stably (`sorted(srvs, key=lambda s: s.period)`). -/
def sortSrvs (srvs : List Srv) : List Srv :=
  srvs.insertionSort (fun a b => a.period ≤ b.period)

/-- `is_schedulable_core(servers, scheduler)`: under EDF the total demand
is checked at every critical point; under RM every prefix of the
period-sorted servers is checked at every critical point (the source
returns `False` on the first failing check, `True` when all pass). -/
def is_schedulable_core (servers : List (ℚ × ℚ × ℚ)) (sched : String) : Prop :=
  let srvs := servers.map (fun p => Srv.mk p.1 p.2.1 p.2.2)
  ∀ t ∈ scheduling_points_srv srvs,
    if sched = "EDF" then srvDemand srvs t ≤ t
    else ∀ i < (sortSrvs srvs).length, srvDemand ((sortSrvs srvs).take (i + 1)) t ≤ t

instance (servers : List (ℚ × ℚ × ℚ)) (sched : String) :
    Decidable (is_schedulable_core servers sched) := by
  unfold is_schedulable_core
  exact List.decidableBAll _ _

/-- Modelled from the claim's words: each prefix of the period-sorted
servers is checked only at critical points that are at most that prefix's
last server's own period. -/
def isSchedulableCoreRMClaim (servers : List (ℚ × ℚ × ℚ)) : Prop :=
  let srvs := servers.map (fun p => Srv.mk p.1 p.2.1 p.2.2)
  ∀ t ∈ scheduling_points_srv srvs,
    ∀ i < (sortSrvs srvs).length,
      t ≤ ((sortSrvs srvs).getD i (Srv.mk 0 0 0)).period →
      srvDemand ((sortSrvs srvs).take (i + 1)) t ≤ t

/-- Server set for the C6 counterexample: (Q=1,P=2,D=2) and (Q=2,P=3,D=3). -/
def cex6Servers : List (ℚ × ℚ × ℚ) := [(1, 2, 2), (2, 3, 3)]

/-! ## `project/simulator.py` — the event-driven hierarchical simulator

Python mutates task and component objects in place; here the mutable
fields live in `STask`/`SComp` records held by an explicit `SimState`,
and events reference their objects by identifier (the configuration is
assumed to use distinct identifiers, as the Python object model does). -/

structure STask where
  task_name : String
  wcet : ℚ
  period : ℚ
  component_id : String
  priority : Option ℤ
  next_release : ℚ
  remaining : ℚ
  release_time : ℚ
  deadline : ℚ
  response_times : List ℚ
deriving DecidableEq

structure SComp where
  component_id : String
  scheduler : String
  budget : ℚ
  period : ℚ
  priority : Option ℤ
  budget_left : ℚ
  next_replenish : ℚ
deriving DecidableEq

/-- The two event kinds of the queue, referencing their object by id. -/
inductive EvKind where
  | replenish (cid : String)
  | release (tname : String)
deriving DecidableEq

/-- The name of the task a release event references, if it is one. -/
def EvKind.relName : EvKind → Option String
  | .replenish _ => none
  | .release tn => some tn

structure Event where
  time : ℚ
  kind : EvKind
deriving DecidableEq

/-- State of `simulate_core` between loop iterations: the core's data
(speed factor, core-level scheduler), the mutable component and task
records, the clock, the event queue and the `ready_comps` set (a list of
component ids, membership-unique). -/
structure SimState where
  speed : ℚ
  coreSched : String
  comps : List SComp
  tasks : List STask
  clock : ℚ
  evq : List Event
  ready : List String
deriving DecidableEq

def lookupComp (st : SimState) (cid : String) : Option SComp :=
  st.comps.find? (fun c => c.component_id = cid)

def lookupTask (st : SimState) (tn : String) : Option STask :=
  st.tasks.find? (fun t => t.task_name = tn)

/-- The tasks attached to a component (`build_system` attaches by
`component_id`). -/
def compTasks (st : SimState) (c : SComp) : List STask :=
  st.tasks.filter (fun t => t.component_id = c.component_id)

/-- Pop an event of minimal time — `heapq.heappop` pops a minimal-time
event (its order among equal-time events is an unspecified heap artifact,
modelled here as the first minimal one in queue order). -/
def popMin : List Event → Option (Event × List Event)
  | [] => none
  | e :: es =>
    match popMin es with
    | none => some (e, [])
    | some (m, rest) => if m.time < e.time then some (m, e :: rest) else some (e, es)

/-- The time of the earliest queued event (`evq[0].time` of the heap). -/
def minTime? (l : List Event) : Option ℚ := (l.map (fun e => e.time)).min?

/-- `next_evt = evq[0].time if evq else horizon`. -/
def nextEvtTime (st : SimState) (horizon : ℚ) : ℚ := (minTime? st.evq).getD horizon

/-- Insert a component id into the ready set (`ready_comps.add`). -/
def insertReady (r : List String) (cid : String) : List String :=
  if cid ∈ r then r else cid :: r

/-- Apply a popped event (the state's clock has already been advanced to
the event's time).  Replenish resets `budget_left` to the budget and
enqueues the next replenish one period later; release instantiates a new
job and enqueues the task's next release.  A dangling reference leaves
the state unchanged (in Python it would raise — `SimulationInconsistency`). -/
def applyEvent (st : SimState) (ev : Event) : SimState :=
  match ev.kind with
  | .replenish cid =>
    match lookupComp st cid with
    | none => st
    | some c =>
      { st with
        comps := st.comps.map (fun x =>
          if x.component_id = cid then
            { x with budget_left := x.budget, next_replenish := st.clock + x.period }
          else x),
        evq := Event.mk (st.clock + c.period) (.replenish cid) :: st.evq,
        ready := if ∃ t ∈ st.tasks, t.component_id = cid ∧ 0 < t.remaining
                 then insertReady st.ready cid else st.ready }
  | .release tn =>
    match lookupTask st tn with
    | none => st
    | some j =>
      let st1 : SimState :=
        { st with
          tasks := st.tasks.map (fun x =>
            if x.task_name = tn then
              { x with remaining := x.wcet / st.speed, release_time := st.clock,
                       deadline := st.clock + x.period,
                       next_release := x.next_release + x.period }
            else x),
          evq := Event.mk (j.next_release + j.period) (.release tn) :: st.evq }
      match lookupComp st j.component_id with
      | none => st1
      | some pc => { st1 with ready := insertReady st1.ready pc.component_id }

/-- The `active` list: ready components that still have budget and a task
with work, in the canonical order of the component list (Python iterates
a set here; ties of the following `min` are an unspecified artifact). -/
def activeComps (st : SimState) : List SComp :=
  filterP (fun c => c.component_id ∈ st.ready ∧ 0 < c.budget_left ∧
    ∃ t ∈ compTasks st c, 0 < t.remaining) st.comps

/-- `min(t.deadline for t in c.tasks if t.remaining > 0)` (only evaluated
for active components, whose runnable set is nonempty). -/
def readyMinDeadline (st : SimState) (c : SComp) : ℚ :=
  (((filterP (fun t => 0 < t.remaining) (compTasks st c)).map (fun t => t.deadline)).min?).getD 0

/-- Priority key: the Python code compares raw priority numbers (a `None`
would raise there; absent priorities are keyed as 0 here). -/
def prioKey (p : Option ℤ) : ℤ := p.getD 0

/-- Core-level and component-level selection (steps 4 and 5 of the loop):
returns the chosen component and task records, or nothing when no
component is active. -/
def selectPair (st : SimState) : Option (SComp × STask) :=
  match (if st.coreSched = "EDF"
         then minByKey (readyMinDeadline st) (activeComps st)
         else minByKey (fun c => prioKey c.priority) (activeComps st)) with
  | none => none
  | some c =>
    match (if c.scheduler = "EDF"
           then minByKey (fun t => t.deadline) (filterP (fun t => 0 < t.remaining) (compTasks st c))
           else minByKey (fun t => prioKey t.priority) (filterP (fun t => 0 < t.remaining) (compTasks st c))) with
    | none => none
    | some τ => some (c, τ)

/-- Budget consumption of the run phase (`comp.budget_left -= dt`). -/
def budgetUpd (dt : ℚ) (x : SComp) : SComp := { x with budget_left := x.budget_left - dt }

/-- Task-side effect of the run phase: consume `dt` execution and, when
the job completes (`remaining <= 0` after the decrement), append the
response time `run_until - release_time`. -/
def taskUpd (dt run_until : ℚ) (x : STask) : STask :=
  if x.remaining - dt ≤ 0 then
    { x with remaining := x.remaining - dt,
             response_times := x.response_times ++ [run_until - x.release_time] }
  else { x with remaining := x.remaining - dt }

/-- The run phase (steps 6–9): run the selected task until the component's
budget or the job is exhausted or the next event is due; consume budget
and execution, record a response time on completion, update the ready set. -/
def runPhase (st : SimState) (horizon : ℚ) (c : SComp) (τ : STask) : SimState :=
  let next_evt := nextEvtTime st horizon
  let run_until := min (min (st.clock + c.budget_left) (st.clock + τ.remaining)) next_evt
  let dt := run_until - st.clock
  let st1 : SimState :=
    { st with
      comps := st.comps.map (fun x =>
        if x.component_id = c.component_id then budgetUpd dt x else x),
      tasks := st.tasks.map (fun x =>
        if x.task_name = τ.task_name then taskUpd dt run_until x else x),
      clock := run_until }
  let r1 := if c.budget_left - dt ≤ 0 then st1.ready.erase c.component_id else st1.ready
  let r2 := if 0 < τ.remaining - dt then insertReady r1 c.component_id else r1
  { st1 with ready := r2 }

/-- The loop guard `while evq and core.current_time < horizon`. -/
def simGuard (horizon : ℚ) (st : SimState) : Prop := st.evq ≠ [] ∧ st.clock < horizon

instance (horizon : ℚ) (st : SimState) : Decidable (simGuard horizon st) := by
  unfold simGuard; infer_instance

/-- One iteration of the main loop: pop the earliest event, advance the
clock to it, apply it, then (if some component is both ready and active)
select and run. -/
def simStep (horizon : ℚ) (st : SimState) : SimState :=
  match popMin st.evq with
  | none => st
  | some (ev, rest) =>
    let st1 := applyEvent { st with clock := ev.time, evq := rest } ev
    if st1.ready = [] then st1
    else
      match selectPair st1 with
      | none => st1
      | some cτ => runPhase st1 horizon cτ.1 cτ.2

/-- The main loop with explicit fuel: iterate `simStep` while the guard
holds (the Python loop terminates because the clock reaches the horizon;
no claim depends on the global termination argument). -/
def simRun (horizon : ℚ) : ℕ → SimState → SimState
  | 0, st => st
  | n+1, st => if simGuard horizon st then simRun horizon n (simStep horizon st) else st

/-- The initial event queue: per component one replenish at time 0 followed
by one release at time 0 per attached task (heap order among the time-0
events is unspecified in Python; queue order stands in for it). -/
def initEvq (comps : List SComp) (tasks : List STask) : List Event :=
  comps.flatMap (fun c =>
    Event.mk 0 (.replenish c.component_id) ::
      (tasks.filter (fun t => t.component_id = c.component_id)).map
        (fun t => Event.mk 0 (.release t.task_name)))

/-- The state `simulate_core` starts from: `build_system` has set
`budget_left = budget` and `next_replenish = period`; the per-task fields
are reset (`release_time`/`deadline` are unset in Python until the first
release; they are initialized to 0 here and are not read before then). -/
def initState (speed : ℚ) (sched : String) (comps : List SComp) (tasks : List STask) : SimState :=
  { speed := speed, coreSched := sched,
    comps := comps.map (fun c => { c with budget_left := c.budget, next_replenish := c.period }),
    tasks := tasks.map (fun t =>
      { t with next_release := 0, remaining := 0, release_time := 0, deadline := 0,
               response_times := [] }),
    clock := 0, evq := initEvq comps tasks, ready := [] }

/-- The per-task output record of `simulate_core`. -/
structure Metrics where
  avg_rt : ℚ
  max_rt : ℚ
  missed : Prop
  sup_util : ℚ

/-- One task's aggregated metrics (lines 110–122 of the source):
`statistics.mean(rts) if rts else 0.0`, `max(rts) if rts else 0.0`,
`any(rt > t.period for rt in rts)`, `c.budget / c.period`. -/
def taskMetrics (c : SComp) (t : STask) : Metrics :=
  { avg_rt := if t.response_times = [] then 0 else t.response_times.sum / t.response_times.length,
    max_rt := if t.response_times = [] then 0 else (t.response_times.max?).getD 0,
    missed := ∃ rt ∈ t.response_times, t.period < rt,
    sup_util := c.budget / c.period }

/-- The output dictionary of `simulate_core`, as an association list in
component-then-task order. -/
def aggregate (st : SimState) : List (String × Metrics) :=
  st.comps.flatMap (fun c => (compTasks st c).map (fun t => (t.task_name, taskMetrics c t)))

/-- `simulate_core(core, horizon)` from the initial configuration, with
explicit loop fuel. -/
def simulate_core (speed : ℚ) (sched : String) (comps : List SComp) (tasks : List STask)
    (horizon : ℚ) (fuel : ℕ) : List (String × Metrics) :=
  aggregate (simRun horizon fuel (initState speed sched comps tasks))

/-- The execution time the step grants to the tasks of component `cid`
(the `dt` of the run phase when that component is selected, else 0). -/
def stepGrant (horizon : ℚ) (st : SimState) (cid : String) : ℚ :=
  match popMin st.evq with
  | none => 0
  | some (ev, rest) =>
    let st1 := applyEvent { st with clock := ev.time, evq := rest } ev
    if st1.ready = [] then 0
    else
      match selectPair st1 with
      | none => 0
      | some cτ =>
        if cτ.1.component_id = cid then
          min (min (st1.clock + cτ.1.budget_left) (st1.clock + cτ.2.remaining))
            (nextEvtTime st1 horizon) - st1.clock
        else 0

/-- Total execution time granted to component `cid` over the next `n`
iterations of the loop. -/
def grantsSum (horizon : ℚ) (cid : String) : ℕ → SimState → ℚ
  | 0, _ => 0
  | n+1, st =>
    if simGuard horizon st then stepGrant horizon st cid + grantsSum horizon cid n (simStep horizon st)
    else 0

/-- The next loop iteration exists and pops a replenish event of `cid`. -/
def popsReplenish (horizon : ℚ) (st : SimState) (cid : String) : Prop :=
  simGuard horizon st ∧ ∃ p, popMin st.evq = some p ∧ p.1.kind = .replenish cid

/-- Static well-formedness of a state: distinct component and task ids,
nonnegative periods and budgets. -/
def WFState (st : SimState) : Prop :=
  (st.comps.map (fun c => c.component_id)).Nodup ∧
  (st.tasks.map (fun t => t.task_name)).Nodup ∧
  (∀ c ∈ st.comps, 0 ≤ c.period ∧ 0 ≤ c.budget) ∧
  (∀ t ∈ st.tasks, 0 ≤ t.period)

/-- Every queued event references an existing component or task. -/
def evRef (st : SimState) (e : Event) : Prop :=
  match e.kind with
  | .replenish cid => ∃ c ∈ st.comps, c.component_id = cid
  | .release tn => ∃ τ ∈ st.tasks, τ.task_name = tn

/-- The id of the component a replenish event references, if it is one. -/
def EvKind.repName : EvKind → Option String
  | .replenish cid => some cid
  | .release _ => none

/-- Queue invariant: no queued event lies in the past, release events
carry their task's `next_release`, at most one release event is queued
per task, at most one replenish event is queued per component, and
events reference existing objects. -/
def QInv (st : SimState) : Prop :=
  (∀ e ∈ st.evq, st.clock ≤ e.time) ∧
  (∀ e ∈ st.evq, ∀ τ ∈ st.tasks, e.kind = .release τ.task_name → e.time = τ.next_release) ∧
  (st.evq.filterMap (fun e => e.kind.relName)).Nodup ∧
  (st.evq.filterMap (fun e => e.kind.repName)).Nodup ∧
  (∀ e ∈ st.evq, evRef st e)

/-- The budget bounds the claim asserts throughout a run. -/
def BInv (st : SimState) : Prop :=
  ∀ c ∈ st.comps, 0 ≤ c.budget_left ∧ c.budget_left ≤ c.budget

/-- The preserved simulation invariant. -/
def Inv (st : SimState) : Prop := WFState st ∧ QInv st ∧ BInv st

/-- Well-formedness of the configuration handed to `simulate_core`:
distinct identifiers and nonnegative periods and budgets, as the Python
object model and the parsed system provide. -/
def WFConfig (comps : List SComp) (tasks : List STask) : Prop :=
  (comps.map (fun c => c.component_id)).Nodup ∧
  (tasks.map (fun t => t.task_name)).Nodup ∧
  (∀ c ∈ comps, 0 ≤ c.period ∧ 0 ≤ c.budget) ∧
  (∀ t ∈ tasks, 0 ≤ t.period)

/-- Concrete component used by the simulator witnesses. -/
def wComp : SComp :=
  { component_id := "WC", scheduler := "RM", budget := 2, period := 5, priority := some 1,
    budget_left := 2, next_replenish := 5 }

/-- Concrete task used by the simulator witnesses. -/
def wTask : STask :=
  { task_name := "WT", wcet := 1, period := 5, component_id := "WC", priority := some 1,
    next_release := 0, remaining := 0, release_time := 0, deadline := 0, response_times := [] }

/-- A one-event state used by the C1 witness: the release of `wTask` is
due at time 0. -/
def wStateC1 : SimState :=
  { speed := 1, coreSched := "RM", comps := [wComp], tasks := [wTask],
    clock := 0, evq := [Event.mk 0 (.release "WT")], ready := [] }

/-- A one-event state used by the C2 witness: the replenish of `wComp` is
due at time 0 and there is no task. -/
def wStateC2 : SimState :=
  { speed := 1, coreSched := "RM", comps := [wComp], tasks := [],
    clock := 0, evq := [Event.mk 0 (.replenish "WC")], ready := [] }

/-- The state of the C1 witness after its release event is applied. -/
def wStep1 : SimState :=
  applyEvent { wStateC1 with clock := 0, evq := [] } (Event.mk 0 (.release "WT"))

/-- The witness task right after its time-0 release. -/
def wTaskRel : STask :=
  { wTask with next_release := 5, remaining := 1, release_time := 0, deadline := 5 }

/-! ## Generic lemmas about the helpers -/

theorem filterP_mem {α : Type} (p : α → Prop) [DecidablePred p] (l : List α) (x : α) :
    x ∈ filterP p l ↔ x ∈ l ∧ p x := by
  induction l with
  | nil => simp [filterP]
  | cons a as ih =>
    by_cases h : p a
    · simp only [filterP, if_pos h, List.mem_cons, ih]
      constructor
      · rintro (rfl | ⟨hm, hp⟩)
        · exact ⟨Or.inl rfl, h⟩
        · exact ⟨Or.inr hm, hp⟩
      · rintro ⟨rfl | hm, hp⟩
        · exact Or.inl rfl
        · exact Or.inr ⟨hm, hp⟩
    · simp only [filterP, if_neg h, List.mem_cons, ih]
      constructor
      · rintro ⟨hm, hp⟩; exact ⟨Or.inr hm, hp⟩
      · rintro ⟨rfl | hm, hp⟩
        · exact absurd hp h
        · exact ⟨hm, hp⟩

theorem minByKey_mem {α κ : Type} [LinearOrder κ] (key : α → κ) (l : List α) (x : α)
    (h : minByKey key l = some x) : x ∈ l := by
  induction l generalizing x with
  | nil => simp [minByKey] at h
  | cons a as ih =>
    rw [minByKey] at h
    rcases hm : minByKey key as with _ | y <;> rw [hm] at h <;> simp only at h
    · cases h; exact List.mem_cons_self a as
    · by_cases hk : key y < key a
      · rw [if_pos hk] at h
        injection h with h
        subst h
        exact List.mem_cons_of_mem a (ih _ hm)
      · rw [if_neg hk] at h
        injection h with h
        subst h
        exact List.mem_cons_self a as

/-! ## Response-time analysis: lemmas and claims C7, C8 -/

theorem interference_zero (hp : List ExTask) : interference hp 0 = 0 := by
  simp [interference]

theorem interference_nonneg (hp : List ExTask)
    (h : ∀ j ∈ hp, 0 < j.period ∧ 0 ≤ j.wcet) (R : ℤ) (hR : 0 ≤ R) :
    0 ≤ interference hp R := by
  apply List.sum_nonneg
  intro x hx
  obtain ⟨j, hj, rfl⟩ := List.mem_map.1 hx
  obtain ⟨hT, hw⟩ := h j hj
  have h1 : (0 : ℚ) ≤ (R : ℚ) / (j.period : ℚ) := by
    apply div_nonneg
    · exact_mod_cast hR
    · exact_mod_cast hT.le
  exact mul_nonneg (Int.ceil_nonneg h1) hw

theorem interference_mono (hp : List ExTask)
    (h : ∀ j ∈ hp, 0 < j.period ∧ 0 ≤ j.wcet) {a b : ℤ} (hab : a ≤ b) :
    interference hp a ≤ interference hp b := by
  apply List.sum_le_sum
  intro j hj
  obtain ⟨hT, hw⟩ := h j hj
  have hT' : (0 : ℚ) < (j.period : ℚ) := by exact_mod_cast hT
  have hab' : (a : ℚ) ≤ (b : ℚ) := by exact_mod_cast hab
  have hdiv : (a : ℚ) / (j.period : ℚ) ≤ (b : ℚ) / (j.period : ℚ) := by gcongr
  exact mul_le_mul_of_nonneg_right (Int.ceil_le_ceil hdiv) hw

theorem rtaLoop_some_fix (hp : List ExTask) (C D : ℤ) :
    ∀ (fuel : ℕ) (Rprev R r : ℤ),
      (R = C + interference hp Rprev ∨ (Rprev = 0 ∧ R = C)) →
      rtaLoop hp C D Rprev R fuel = some (some r) →
      r = C + interference hp r := by
  intro fuel
  induction fuel with
  | zero => intro Rprev R r _ h; simp [rtaLoop] at h
  | succ f ih =>
    intro Rprev R r hinv h
    rw [rtaLoop] at h
    by_cases he : R = Rprev
    · rw [if_pos he] at h
      injection h with h
      injection h with h
      subst h
      rcases hinv with hfix | ⟨h0, hC⟩
      · rw [he] at hfix ⊢; exact hfix
      · subst h0 hC
        rw [he, interference_zero]
        omega
    · rw [if_neg he] at h
      by_cases hd : D < C + interference hp R
      · rw [if_pos hd] at h
        injection h with h
        exact absurd h (by simp)
      · rw [if_neg hd] at h
        exact ih R (C + interference hp R) r (Or.inl rfl) h

theorem rtaLoop_none_deadline (hp : List ExTask) (C D : ℤ) :
    ∀ (fuel : ℕ) (Rprev R : ℤ) (k : ℕ),
      R = rtaSeq hp C k →
      rtaLoop hp C D Rprev R fuel = some none →
      ∃ m, D < rtaSeq hp C m := by
  intro fuel
  induction fuel with
  | zero => intro Rprev R k _ h; simp [rtaLoop] at h
  | succ f ih =>
    intro Rprev R k hk h
    rw [rtaLoop] at h
    by_cases he : R = Rprev
    · rw [if_pos he] at h
      injection h with h
      exact absurd h (by simp)
    · rw [if_neg he] at h
      by_cases hd : D < C + interference hp R
      · refine ⟨k + 1, ?_⟩
        rw [rtaSeq, ← hk]
        exact hd
      · rw [if_neg hd] at h
        exact ih R (C + interference hp R) (k + 1) (by rw [rtaSeq, hk]) h

theorem rtaSeq_succ_le (hp : List ExTask) (C : ℤ) (hC : 0 ≤ C)
    (hhp : ∀ j ∈ hp, 0 < j.period ∧ 0 ≤ j.wcet) :
    ∀ k : ℕ, rtaSeq hp C k ≤ rtaSeq hp C (k + 1) ∧ 0 ≤ rtaSeq hp C k := by
  intro k
  induction k with
  | zero =>
    refine ⟨?_, hC⟩
    show C ≤ C + interference hp C
    have h0 := interference_nonneg hp hhp C hC
    omega
  | succ k ih =>
    obtain ⟨hle, hnn⟩ := ih
    have h1 := interference_mono hp hhp hle
    have h2 := interference_nonneg hp hhp (rtaSeq hp C k) hnn
    constructor
    · show C + interference hp (rtaSeq hp C k) ≤ C + interference hp (rtaSeq hp C (k + 1))
      omega
    · show 0 ≤ C + interference hp (rtaSeq hp C k)
      omega

theorem rtaSeq_mono (hp : List ExTask) (C : ℤ) (hC : 0 ≤ C)
    (hhp : ∀ j ∈ hp, 0 < j.period ∧ 0 ≤ j.wcet) :
    ∀ m k : ℕ, m ≤ k → rtaSeq hp C m ≤ rtaSeq hp C k := by
  intro m k hmk
  induction k, hmk using Nat.le_induction with
  | base => exact le_refl _
  | succ n hn ih => exact le_trans ih (rtaSeq_succ_le hp C hC hhp n).1

theorem rtaSeq_const_of_fix (hp : List ExTask) (C r : ℤ)
    (hr : r = C + interference hp r) :
    ∀ k : ℕ, rtaSeq hp C k = r → ∀ m : ℕ, k ≤ m → rtaSeq hp C m = r := by
  intro k hk m hm
  induction m, hm using Nat.le_induction with
  | base => exact hk
  | succ n hn ih =>
    show C + interference hp (rtaSeq hp C n) = r
    rw [ih, ← hr]

theorem rtaLoop_some_le (hp : List ExTask) (C D : ℤ) (hD : 0 ≤ D) :
    ∀ (fuel : ℕ) (Rprev R r : ℤ) (k : ℕ),
      R = rtaSeq hp C k →
      (R ≤ D ∨ (Rprev = 0 ∧ R = C)) →
      rtaLoop hp C D Rprev R fuel = some (some r) →
      ∃ m, rtaSeq hp C m = r ∧ r ≤ D := by
  intro fuel
  induction fuel with
  | zero => intro Rprev R r k _ _ h; simp [rtaLoop] at h
  | succ f ih =>
    intro Rprev R r k hk hinv h
    rw [rtaLoop] at h
    by_cases he : R = Rprev
    · rw [if_pos he] at h
      injection h with h
      injection h with h
      subst h
      rcases hinv with hRD | ⟨h0, hC⟩
      · exact ⟨k, hk.symm, hRD⟩
      · refine ⟨k, hk.symm, ?_⟩
        rw [he, h0]
        exact hD
    · rw [if_neg he] at h
      by_cases hd : D < C + interference hp R
      · rw [if_pos hd] at h
        injection h with h
        exact absurd h (by simp)
      · rw [if_neg hd] at h
        push_neg at hd
        exact ih R (C + interference hp R) r (k + 1) (by rw [rtaSeq, hk]) (Or.inl hd) h

theorem rtaFor_some_bounded (hp : List ExTask) (t : ExTask)
    (hhp : ∀ j ∈ hp, 0 < j.period ∧ 0 ≤ j.wcet) (hC : 0 ≤ t.wcet) (hD : 0 ≤ t.deadline)
    (R : ℤ) (h : rtaFor hp t = some (some R)) :
    ∀ k, rtaSeq hp t.wcet k ≤ t.deadline := by
  have hfix : R = t.wcet + interference hp R :=
    rtaLoop_some_fix hp t.wcet t.deadline _ 0 t.wcet R (Or.inr ⟨rfl, rfl⟩) h
  obtain ⟨m, hm, hRD⟩ := rtaLoop_some_le hp t.wcet t.deadline hD _ 0 t.wcet R 0 rfl
    (Or.inr ⟨rfl, rfl⟩) h
  intro k
  by_cases hk : k ≤ m
  · have h1 := rtaSeq_mono hp t.wcet hC hhp k m hk
    rw [hm] at h1
    exact le_trans h1 hRD
  · push_neg at hk
    have h2 := rtaSeq_const_of_fix hp t.wcet R hfix m hm k (le_of_lt hk)
    rw [h2]
    exact hRD

theorem rtaLoop_total (hp : List ExTask) (C D : ℤ)
    (hhp : ∀ j ∈ hp, 0 < j.period ∧ 0 ≤ j.wcet) :
    ∀ (fuel : ℕ) (Rprev R : ℤ), 0 ≤ R → R ≤ C + interference hp R →
      (D + 2 - R).toNat + 2 ≤ fuel →
      ∃ r, rtaLoop hp C D Rprev R fuel = some r := by
  intro fuel
  induction fuel with
  | zero => intro Rprev R _ _ hf; omega
  | succ f ih =>
    intro Rprev R hR0 hRle hf
    rw [rtaLoop]
    by_cases he : R = Rprev
    · exact ⟨some R, by rw [if_pos he]⟩
    · rw [if_neg he]
      by_cases hd : D < C + interference hp R
      · exact ⟨none, by rw [if_pos hd]⟩
      · rw [if_neg hd]
        push_neg at hd
        have hRn0 : 0 ≤ C + interference hp R := le_trans hR0 hRle
        have hRnle : C + interference hp R ≤ C + interference hp (C + interference hp R) := by
          have := interference_mono hp hhp hRle
          omega
        by_cases heq : C + interference hp R = R
        · have hf1 : 1 ≤ f := by omega
          obtain ⟨f', rfl⟩ : ∃ f', f = f' + 1 := ⟨f - 1, by omega⟩
          refine ⟨some (C + interference hp R), ?_⟩
          rw [rtaLoop, if_pos heq]
        · have hlt : R < C + interference hp R := lt_of_le_of_ne hRle (fun hh => heq hh.symm)
          apply ih R (C + interference hp R) hRn0 hRnle
          omega

/-- C8 helper: every entry of `rtaAll done l` has a defined (fuel-sufficient)
result when all parameters are positive. -/
theorem rtaAll_total (P : ExTask → Prop)
    (hP : ∀ t, P t → 0 < t.wcet ∧ 0 < t.period) :
    ∀ (l done : List ExTask), (∀ j ∈ done, P j) → (∀ j ∈ l, P j) →
      ∀ p ∈ rtaAll done l, ∃ r, p.2 = some r := by
  intro l
  induction l with
  | nil => intro done _ _ p hp'; simp [rtaAll] at hp'
  | cons t rest ih =>
    intro done hdone hl p hp'
    rw [rtaAll] at hp'
    rcases List.mem_cons.1 hp' with rfl | hmem
    · have hhp : ∀ j ∈ done, 0 < j.period ∧ 0 ≤ j.wcet := by
        intro j hj
        obtain ⟨hw, hT⟩ := hP j (hdone j hj)
        exact ⟨hT, hw.le⟩
      obtain ⟨hw, _⟩ := hP t (hl t (List.mem_cons_self t rest))
      have h0 : (0 : ℤ) ≤ t.wcet := hw.le
      have hle : t.wcet ≤ t.wcet + interference done t.wcet := by
        have := interference_nonneg done hhp t.wcet h0
        omega
      obtain ⟨r, hr⟩ := rtaLoop_total done t.wcet t.deadline hhp
        (rtaFuel t.wcet t.deadline) 0 t.wcet h0 hle (le_refl _)
      exact ⟨r, hr⟩
    · apply ih (done ++ [t]) ?_ ?_ p hmem
      · intro j hj
        rcases List.mem_append.1 hj with hj | hj
        · exact hdone j hj
        · rcases List.mem_singleton.1 hj with rfl
          exact hl j (List.mem_cons_self j rest)
      · intro j hj
        exact hl j (List.mem_cons_of_mem t hj)

/-- C7 helper: the shape of the entries `response_time_analysis` produces. -/
theorem rtaAll_shape :
    ∀ (l done : List ExTask) (p : String × Option (Option ℤ)), p ∈ rtaAll done l →
      ∃ i : ℕ, ∃ h : i < l.length,
        p = ((l.get ⟨i, h⟩).name, rtaFor (done ++ l.take i) (l.get ⟨i, h⟩)) := by
  intro l
  induction l with
  | nil => intro done p hp'; simp [rtaAll] at hp'
  | cons t rest ih =>
    intro done p hp'
    rw [rtaAll] at hp'
    rcases List.mem_cons.1 hp' with rfl | hmem
    · exact ⟨0, by simp, by simp⟩
    · obtain ⟨i, hi, hpeq⟩ := ih (done ++ [t]) p hmem
      refine ⟨i + 1, by simpa using hi, ?_⟩
      simpa [List.append_assoc] using hpeq

/-- C8: `response_time_analysis` terminates on every task set with positive
integer WCETs and periods: the interference term (and so the iterated
response-time value) is monotone non-decreasing in `R`, and with fuel
`rtaFuel` the loop always reaches a fixed point or exceeds the deadline —
no entry of the result is left undefined. -/
theorem rta_terminates :
    (∀ (hp : List ExTask), (∀ j ∈ hp, 0 < j.period ∧ 0 ≤ j.wcet) →
      ∀ a b : ℤ, a ≤ b → interference hp a ≤ interference hp b)
  ∧ (∀ (tasks : List ExTask), (∀ j ∈ tasks, 0 < j.wcet ∧ 0 < j.period) →
      ∀ p ∈ response_time_analysis tasks, ∃ r, p.2 = some r) := by
  constructor
  · intro hp hhp a b hab
    exact interference_mono hp hhp hab
  · intro tasks htasks p hp'
    rw [response_time_analysis] at hp'
    apply rtaAll_total (fun t => 0 < t.wcet ∧ 0 < t.period) (fun t h => h)
      (sortByPrio tasks) [] (by intro j hj; simp at hj) ?_ p hp'
    intro j hj
    exact htasks j ((List.perm_insertionSort _ tasks).mem_iff.1 hj)

/-- C7 (amended): `response_time_analysis` processes the tasks in
priority-sorted order; for each task the iteration starts at `R = WCET`
and sums interference over the tasks preceding it in that order (with
distinct priorities these are exactly the strictly-higher-priority tasks;
an equal-priority earlier task is also counted).  A returned value is a
fixed point of that recurrence, and the absent value (`None`, no
exception) is produced exactly when an iterate exceeds the task's
deadline: if the result is absent some iterate exceeds the deadline, and
conversely — every freshly computed iterate is checked against the
deadline before the loop continues — if a value is returned then (for
nonnegative parameters, as produced by the integer task loader) no
iterate of the recurrence ever exceeds the deadline. -/
theorem rta_fixed_point_amended :
    (∀ (hp : List ExTask) (t : ExTask) (R : ℤ),
      rtaFor hp t = some (some R) → R = t.wcet + interference hp R)
  ∧ (∀ (hp : List ExTask) (t : ExTask),
      rtaFor hp t = some none → ∃ k, t.deadline < rtaSeq hp t.wcet k)
  ∧ (∀ (hp : List ExTask) (t : ExTask) (R : ℤ),
      (∀ j ∈ hp, 0 < j.period ∧ 0 ≤ j.wcet) → 0 ≤ t.wcet → 0 ≤ t.deadline →
      rtaFor hp t = some (some R) → ∀ k, rtaSeq hp t.wcet k ≤ t.deadline)
  ∧ (∀ (tasks : List ExTask) (p : String × Option (Option ℤ)),
      p ∈ response_time_analysis tasks →
      ∃ i : ℕ, ∃ h : i < (sortByPrio tasks).length,
        p = (((sortByPrio tasks).get ⟨i, h⟩).name,
             rtaFor ((sortByPrio tasks).take i) ((sortByPrio tasks).get ⟨i, h⟩))) := by
  refine ⟨?_, ?_, ?_, ?_⟩
  · intro hp t R h
    exact rtaLoop_some_fix hp t.wcet t.deadline _ 0 t.wcet R (Or.inr ⟨rfl, rfl⟩) h
  · intro hp t h
    exact rtaLoop_none_deadline hp t.wcet t.deadline _ 0 t.wcet 0 rfl h
  · intro hp t R hhp hC hD h
    exact rtaFor_some_bounded hp t hhp hC hD R h
  · intro tasks p hp'
    rw [response_time_analysis] at hp'
    simpa using rtaAll_shape (sortByPrio tasks) [] p hp'

/-- C7 counterexample: two tasks share priority 1; the code returns
response time 2 for the second one, which is not a fixed point of the
recurrence over strictly-higher-priority tasks (that recurrence's right
side at 2 is 1). -/
theorem rta_strict_priority_counterexample :
    response_time_analysis [rtaTieA, rtaTieB] = [("A", some (some 1)), ("B", some (some 2))]
    ∧ (2 : ℤ) ≠ rtaTieB.wcet + strictInterference [rtaTieA, rtaTieB] rtaTieB 2 := by
  have hc1 : (⌈(1 : ℚ) / 4⌉ : ℤ) = 1 := by norm_num [Int.ceil_eq_iff]
  have hc2 : (⌈(1 : ℚ) / 2⌉ : ℤ) = 1 := by norm_num [Int.ceil_eq_iff]
  have hc3 : (⌈(2 : ℚ) / 4⌉ : ℤ) = 1 := by norm_num [Int.ceil_eq_iff]
  constructor
  · norm_num [response_time_analysis, sortByPrio, List.insertionSort, List.orderedInsert,
      rtaTieA, rtaTieB, rtaAll, rtaFor, rtaFuel, rtaLoop, interference, hc1, hc2, hc3]
  · norm_num [strictInterference, filterP, rtaTieA, rtaTieB]

/-! ## Fixed-budget feasibility: lemmas and claims C4, C5, C9 -/

theorem fb_check_true_iff (c : Component) (speed : ℚ) :
    ∀ l : List ℚ, fb_check c speed l = (true, none) ↔
      ∀ t ∈ l, dbf c.tasks t speed ≤ sbf c t := by
  intro l
  induction l with
  | nil => simp [fb_check]
  | cons t ts ih =>
    rw [fb_check]
    by_cases h : sbf c t < dbf c.tasks t speed
    · rw [if_pos h]
      constructor
      · intro heq
        exact absurd (congrArg Prod.fst heq) (by simp)
      · intro hall
        exact absurd (hall t (List.mem_cons_self t ts)) (not_le.2 h)
    · rw [if_neg h]
      rw [ih]
      push_neg at h
      constructor
      · intro hall x hx
        rcases List.mem_cons.1 hx with rfl | hx
        · exact h
        · exact hall x hx
      · intro hall x hx
        exact hall x (List.mem_cons_of_mem t hx)

theorem fb_check_false_iff (c : Component) (speed : ℚ) :
    ∀ l : List ℚ, l.Sorted (· ≤ ·) → l.Nodup → ∀ t0 : ℚ,
      (fb_check c speed l = (false, some t0) ↔
        (t0 ∈ l ∧ sbf c t0 < dbf c.tasks t0 speed ∧
          ∀ t ∈ l, t < t0 → dbf c.tasks t speed ≤ sbf c t)) := by
  intro l
  induction l with
  | nil => intro _ _ t0; simp [fb_check]
  | cons t ts ih =>
    intro hsorted hnodup t0
    obtain ⟨hle, hsorted'⟩ := List.sorted_cons.1 hsorted
    obtain ⟨hnotmem, hnodup'⟩ := List.nodup_cons.1 hnodup
    rw [fb_check]
    by_cases h : sbf c t < dbf c.tasks t speed
    · rw [if_pos h]
      constructor
      · intro heq
        have ht0 : t = t0 := by simpa using congrArg Prod.snd heq
        subst ht0
        refine ⟨List.mem_cons_self t ts, h, ?_⟩
        intro x hx hlt
        rcases List.mem_cons.1 hx with rfl | hx
        · exact absurd hlt (lt_irrefl x)
        · exact absurd hlt (not_lt.2 (hle x hx))
      · rintro ⟨hmem, hviol, hmin⟩
        rcases List.mem_cons.1 hmem with rfl | hmem
        · rfl
        · have htlt : t < t0 := lt_of_le_of_ne (hle t0 hmem) (fun he => hnotmem (he ▸ hmem))
          exact absurd (hmin t (List.mem_cons_self t ts) htlt) (not_le.2 h)
    · rw [if_neg h]
      push_neg at h
      rw [ih hsorted' hnodup' t0]
      constructor
      · rintro ⟨hmem, hviol, hmin⟩
        refine ⟨List.mem_cons_of_mem t hmem, hviol, ?_⟩
        intro x hx hlt
        rcases List.mem_cons.1 hx with rfl | hx
        · exact h
        · exact hmin x hx hlt
      · rintro ⟨hmem, hviol, hmin⟩
        rcases List.mem_cons.1 hmem with rfl | hmem
        · exact absurd hviol (not_lt.2 h)
        · exact ⟨hmem, hviol, fun x hx hlt => hmin x (List.mem_cons_of_mem t hx) hlt⟩

theorem scheduling_points_sorted (c : Component) :
    (scheduling_points c).Sorted (· ≤ ·) := by
  rw [scheduling_points]
  exact List.sorted_insertionSort _ _

theorem scheduling_points_nodup (c : Component) : (scheduling_points c).Nodup := by
  rw [scheduling_points]
  exact (List.perm_insertionSort _ _).nodup_iff.2 (List.nodup_dedup _)

/-- C4: `is_component_schedulable` answers `(True, None)` exactly when
`DBF(t) ≤ SBF(t)` at every enumerated critical point, and `(False, t0)`
exactly when `t0` is the smallest enumerated point where demand strictly
exceeds supply. -/
theorem is_component_schedulable_spec (c : Component) (speed : ℚ) :
    (is_component_schedulable c speed = (true, none) ↔
      ∀ t ∈ scheduling_points c, dbf c.tasks t speed ≤ sbf c t)
  ∧ (∀ t0 : ℚ, is_component_schedulable c speed = (false, some t0) ↔
      (t0 ∈ scheduling_points c ∧ sbf c t0 < dbf c.tasks t0 speed ∧
        ∀ t ∈ scheduling_points c, t < t0 → dbf c.tasks t speed ≤ sbf c t)) := by
  constructor
  · exact fb_check_true_iff c speed (scheduling_points c)
  · intro t0
    exact fb_check_false_iff c speed (scheduling_points c)
      (scheduling_points_sorted c) (scheduling_points_nodup c) t0

/-- Helper for C5: membership of `k * q` values produced from a range. -/
theorem mem_range_map_mul (n : ℤ) (q x : ℚ) :
    (x ∈ (List.range n.toNat).map (fun k : ℕ => ((k : ℚ) + 1) * q)) ↔
      ∃ k : ℤ, 1 ≤ k ∧ k ≤ n ∧ x = (k : ℚ) * q := by
  constructor
  · intro hx
    obtain ⟨k, hk, hval⟩ := List.mem_map.1 hx
    rw [List.mem_range] at hk
    refine ⟨(k : ℤ) + 1, by omega, by omega, ?_⟩
    rw [← hval]
    push_cast
    ring
  · rintro ⟨k, h1, hn, rfl⟩
    apply List.mem_map.2
    refine ⟨(k - 1).toNat, ?_, ?_⟩
    · rw [List.mem_range]; omega
    · have h2 : (((k - 1).toNat : ℤ) : ℚ) = (k : ℚ) - 1 := by
        rw [Int.toNat_of_nonneg (by omega)]
        push_cast
        ring
      have h3 : (((k - 1).toNat : ℕ) : ℚ) = (k : ℚ) - 1 := by exact_mod_cast h2
      rw [h3]
      ring

/-- C5 (amended): the critical points of the fixed-budget test are exactly
the multiples of the server period `P = int(period)` up to
`hyperperiod // P` and, when `D = P - budget` is positive, the multiples
of `D` up to `hyperperiod // D` — task-period multiples are not
included. -/
theorem scheduling_points_mem (c : Component) (x : ℚ) :
    x ∈ scheduling_points c ↔
      ((∃ k : ℤ, 1 ≤ k ∧ k ≤ Int.fdiv (fb_hyper c) (pyInt c.period) ∧
          x = (k : ℚ) * (pyInt c.period : ℚ))
       ∨ (0 < (pyInt c.period : ℚ) - c.budget ∧
          ∃ k : ℤ, 1 ≤ k ∧ k ≤ ⌊(fb_hyper c : ℚ) / ((pyInt c.period : ℚ) - c.budget)⌋ ∧
            x = (k : ℚ) * ((pyInt c.period : ℚ) - c.budget))) := by
  rw [scheduling_points]
  rw [List.Perm.mem_iff (List.perm_insertionSort _ _)]
  rw [List.mem_dedup, List.mem_append]
  constructor
  · rintro (hP | hD)
    · exact Or.inl ((mem_range_map_mul _ _ x).1 hP)
    · by_cases hpos : 0 < (pyInt c.period : ℚ) - c.budget
      · rw [if_pos hpos] at hD
        exact Or.inr ⟨hpos, (mem_range_map_mul _ _ x).1 hD⟩
      · rw [if_neg hpos] at hD
        simp at hD
  · rintro (hP | ⟨hpos, hD⟩)
    · exact Or.inl ((mem_range_map_mul _ _ x).2 hP)
    · refine Or.inr ?_
      rw [if_pos hpos]
      exact (mem_range_map_mul _ _ x).2 hD

/-- C5 counterexample: for a component with server period 4, budget 2 and
a single task of period 3 (hyperperiod 3), the enumerated critical points
are just `[2]`: the task-period multiple 3, although at most the
hyperperiod, is not checked. -/
theorem scheduling_points_counterexample :
    scheduling_points cex5 = [2] ∧ fb_hyper cex5 = 3 ∧
      ((3 : ℚ) = 1 * (3 : ℚ) ∧ (3 : ℚ) ≤ (fb_hyper cex5 : ℚ)) ∧
      (3 : ℚ) ∉ scheduling_points cex5 := by
  have hfd1 : Int.fdiv 3 1 = 3 := by decide
  have hgcd : Int.gcd 1 3 = 1 := by decide
  have hfd2 : Int.fdiv 3 4 = 0 := by decide
  have hhyp : fb_hyper cex5 = 3 := by
    rw [fb_hyper]
    norm_num [cex5, pyInt, hgcd, hfd1]
  have hP : pyInt (4 : ℚ) = 4 := by norm_num [pyInt]
  have hpts : scheduling_points cex5 = [2] := by
    rw [scheduling_points, hhyp]
    norm_num [cex5, hP, hfd2, List.range_succ, List.insertionSort, List.orderedInsert]
  refine ⟨hpts, hhyp, ⟨by norm_num, by rw [hhyp]; norm_num⟩, by rw [hpts]; norm_num⟩

theorem fb_check_snd_some (c : Component) (speed : ℚ) :
    ∀ (l : List ℚ) (t0 : ℚ), (fb_check c speed l).2 = some t0 →
      sbf c t0 < dbf c.tasks t0 speed := by
  intro l
  induction l with
  | nil => intro t0 h; simp [fb_check] at h
  | cons t ts ih =>
    intro t0 h
    rw [fb_check] at h
    by_cases hv : sbf c t < dbf c.tasks t speed
    · rw [if_pos hv] at h
      simp only at h
      injection h with h
      exact h ▸ hv
    · rw [if_neg hv] at h
      exact ih t0 h

theorem cex9_points : scheduling_points cex9 = [2, 4] := by
  have hgcd : Int.gcd 1 4 = 1 := by decide
  have hfd1 : Int.fdiv 4 1 = 4 := by decide
  have hfd2 : Int.fdiv 4 4 = 1 := by decide
  have hhyp : fb_hyper cex9 = 4 := by
    rw [fb_hyper]
    norm_num [cex9, pyInt, hgcd, hfd1]
  have hP : pyInt (4 : ℚ) = 4 := by norm_num [pyInt]
  have ht2 : (2 : ℤ).toNat = 2 := by decide
  rw [scheduling_points, hhyp]
  norm_num [cex9, hP, hfd2, ht2, List.range_succ, List.insertionSort, List.orderedInsert,
    List.dedup, List.pwFilter]

theorem cex9_verdict (s : ℚ) (hs : 1 < 1 / s) :
    is_component_schedulable cex9 s = (false, some 4) := by
  have hdbf2 : dbf cex9.tasks 2 s = 0 := by
    norm_num [dbf, cex9]
  have hsbf2 : sbf cex9 2 = 0 := by
    norm_num [sbf, cex9]
  have hdbf4 : dbf cex9.tasks 4 s = 1 / s := by
    norm_num [dbf, cex9, one_div]
  have hsbf4 : sbf cex9 4 = 1 := by
    norm_num [sbf, cex9]
  rw [is_component_schedulable, cex9_points, fb_check,
    if_neg (by rw [hdbf2, hsbf2]; exact lt_irrefl 0), fb_check,
    if_pos (by rw [hdbf4, hsbf4]; exact hs)]

/-- C9 counterexample (the claim's negation): no single positive epsilon is
admitted — for every positive eps there is a component and core speed for
which the fixed-budget test reports a violation whose demand exceeds
supply by only eps/2. -/
theorem no_epsilon_tolerance : ¬ ClaimC9 := by
  rintro ⟨eps, heps, hfb, _⟩
  have h2e : (0 : ℚ) < 2 + eps := by linarith
  have hinv : 1 / (2 / (2 + eps)) = (2 + eps) / 2 := one_div_div 2 (2 + eps)
  have hgt : 1 < 1 / (2 / (2 + eps)) := by
    rw [hinv, lt_div_iff₀ (by norm_num : (0 : ℚ) < 2)]
    linarith
  have hverdict := cex9_verdict (2 / (2 + eps)) hgt
  have hd4 : dbf cex9.tasks 4 (2 / (2 + eps)) = (2 + eps) / 2 := by
    norm_num [dbf, cex9, one_div]
  have hs4 : sbf cex9 4 = 1 := by norm_num [sbf, cex9]
  have := hfb cex9 (2 / (2 + eps)) 4 hverdict
  rw [hd4, hs4] at this
  linarith

/-- C9 (amended): the demand-versus-supply comparisons of both tests are
exact, with no epsilon tolerance: the fixed-budget test reports a
violating point exactly when demand strictly exceeds supply there (any
positive excess, however small, is reported; equality is accepted), and
the BDR acceptance check rejects a candidate exactly when some critical
point's demand strictly exceeds its supply. -/
theorem comparisons_are_exact (c : Component) (speed : ℚ) :
    (∀ t0 ∈ (is_component_schedulable c speed).2, sbf c t0 < dbf c.tasks t0 speed)
  ∧ (is_component_schedulable c speed = (true, none) ↔
      ∀ t ∈ scheduling_points c, dbf c.tasks t speed ≤ sbf c t)
  ∧ (∀ alpha delta : ℚ, ¬ bdrFeasible c speed alpha delta ↔
      ∃ t ∈ bdrPts c, sbf_bdr alpha delta t < bdrDemand c speed t) := by
  refine ⟨?_, fb_check_true_iff c speed (scheduling_points c), ?_⟩
  · intro t0 ht0
    apply fb_check_snd_some c speed (scheduling_points c)
    simpa [is_component_schedulable] using ht0
  · intro alpha delta
    simp only [bdrFeasible, not_forall, not_le, exists_prop]

/-! ## Core-level schedulability: claim C6 -/

theorem cex6_sorted : sortSrvs [Srv.mk 1 2 2, Srv.mk 2 3 3] = [Srv.mk 1 2 2, Srv.mk 2 3 3] := by
  norm_num [sortSrvs, List.insertionSort, List.orderedInsert]

theorem cex6_points : scheduling_points_srv [Srv.mk 1 2 2, Srv.mk 2 3 3] = [2, 3, 4, 6] := by
  have hl1 : (Int.lcm 1 2 : ℤ) = 2 := by decide
  have hl2 : (Int.lcm 2 3 : ℤ) = 6 := by decide
  have ht3 : (3 : ℤ).toNat = 3 := by decide
  have ht2 : (2 : ℤ).toNat = 2 := by decide
  rw [scheduling_points_srv]
  norm_num [pyLcmInt, pyInt, hl1, hl2, ht3, ht2, List.range_succ,
    List.insertionSort, List.orderedInsert, List.dedup, List.pwFilter]

/-- C6 counterexample: for servers (Q=1,P=2,D=2) and (Q=2,P=3,D=3) under
RM, every prefix check restricted to points at most the prefix server's
own period passes (the claim's algorithm accepts), but the code rejects:
it checks the two-server prefix at the critical point t=6 > 3, where the
cumulative demand is 7 > 6. -/
theorem rm_core_test_counterexample :
    ¬ is_schedulable_core cex6Servers "RM" ∧ isSchedulableCoreRMClaim cex6Servers := by
  have hmap : cex6Servers.map (fun p => Srv.mk p.1 p.2.1 p.2.2) = [Srv.mk 1 2 2, Srv.mk 2 3 3] := by
    norm_num [cex6Servers]
  constructor
  · intro h
    rw [is_schedulable_core] at h
    have h6 := h 6 (by rw [hmap, cex6_points]; norm_num)
    rw [if_neg (by decide)] at h6
    have h61 := h6 1 (by rw [hmap, cex6_sorted]; norm_num)
    rw [hmap, cex6_sorted] at h61
    norm_num [srvDemand] at h61
  · rw [isSchedulableCoreRMClaim, hmap]
    intro t ht i hi hle
    rw [cex6_points] at ht
    rw [cex6_sorted] at hi hle ⊢
    simp only [List.length_cons, List.length_nil] at hi
    interval_cases i
    · fin_cases ht <;> norm_num [srvDemand] at hle ⊢
    · fin_cases ht <;> norm_num [srvDemand] at hle ⊢

/-- C6 (amended): under RM the code orders the servers by period and
checks every prefix's cumulative demand against `t` at every critical
point up to the hyperperiod — including points beyond the prefix server's
own period, which therefore do affect the verdict. -/
theorem is_schedulable_core_rm_spec (servers : List (ℚ × ℚ × ℚ)) :
    is_schedulable_core servers "RM" ↔
      ∀ t ∈ scheduling_points_srv (servers.map (fun p => Srv.mk p.1 p.2.1 p.2.2)),
        ∀ i < (sortSrvs (servers.map (fun p => Srv.mk p.1 p.2.1 p.2.2))).length,
          srvDemand ((sortSrvs (servers.map (fun p => Srv.mk p.1 p.2.1 p.2.2))).take (i + 1)) t ≤ t := by
  rw [is_schedulable_core]
  constructor
  · intro h t ht i hi
    have := h t ht
    rw [if_neg (by decide)] at this
    exact this i hi
  · intro h t ht
    rw [if_neg (by decide)]
    exact h t ht

/-! ## BDR interface search: claim C3 -/

theorem bdrSearch_eq_map (c : Component) (speed dstep maxpt : ℚ) :
    ∀ l : List ℚ, bdrSearch c speed dstep maxpt l =
      Option.map (fun p : ℚ × ℚ => (pyRound3 p.1, pyRound3 p.2))
        (bdrFirstSearch c speed dstep maxpt l) := by
  intro l
  induction l with
  | nil => simp [bdrSearch, bdrFirstSearch]
  | cons a rest ih =>
    rw [bdrSearch, bdrFirstSearch]
    rcases hd : deltaSearch c speed a (deltaList (max 0 (c.period - a * c.period)) maxpt dstep)
      with _ | δ
    · simpa using ih
    · simp

/-- C3 (amended): `compute_bdr_interface` returns exactly the first
feasible pair of the claimed search order, except that both coordinates
are rounded to three decimal places (Python `round(x, 3)`) before being
returned. -/
theorem compute_bdr_interface_rounds (c : Component) (speed astep dstep : ℚ) :
    compute_bdr_interface c speed astep dstep =
      Option.map (fun p : ℚ × ℚ => (pyRound3 p.1, pyRound3 p.2))
        (bdrFirstFeasiblePair c speed astep dstep) := by
  rw [compute_bdr_interface, bdrFirstFeasiblePair]
  exact bdrSearch_eq_map c speed dstep _ _

theorem bdrFirstSearch_cons_none (c : Component) (speed dstep maxpt a : ℚ) (rest : List ℚ)
    (h : deltaSearch c speed a (deltaList (max 0 (c.period - a * c.period)) maxpt dstep) = none) :
    bdrFirstSearch c speed dstep maxpt (a :: rest) = bdrFirstSearch c speed dstep maxpt rest := by
  rw [bdrFirstSearch, h]

theorem bdrFirstSearch_cons_some (c : Component) (speed dstep maxpt a d : ℚ) (rest : List ℚ)
    (h : deltaSearch c speed a (deltaList (max 0 (c.period - a * c.period)) maxpt dstep) = some d) :
    bdrFirstSearch c speed dstep maxpt (a :: rest) = some (a, d) := by
  rw [bdrFirstSearch, h]

theorem cex3_pts : bdrPts cex3 = [3] := by
  have hl : (Int.lcm 1 3 : ℤ) = 3 := by decide
  have ht : (1 : ℤ).toNat = 1 := by decide
  rw [bdrPts]
  norm_num [cex3, pyLcmInt, pyInt, hl, ht, List.range_succ, List.insertionSort,
    List.orderedInsert, List.dedup, List.pwFilter]

theorem cex3_feas (alpha delta : ℚ) :
    bdrFeasible cex3 1 alpha delta ↔ 1 ≤ sbf_bdr alpha delta 3 := by
  rw [bdrFeasible, cex3_pts]
  have hdem : bdrDemand cex3 1 3 = 1 := by
    norm_num [bdrDemand, cex3, dbf_edf]
  simp [hdem]

theorem cex3_first : bdrFirstFeasiblePair cex3 1 (1/3) 1 = some (2/3, 1/3) := by
  have hU : bdrU cex3 1 = 1/3 := by norm_num [bdrU, cex3]
  have hmax : pyLcmInt (cex3.tasks.map (fun τ => pyInt τ.period)) = 3 := by
    have hl : (Int.lcm 1 3 : ℤ) = 3 := by decide
    norm_num [cex3, pyLcmInt, pyInt, hl]
  have hα : alphaList (1/3) (1/3) = [1/3, 2/3, 1] := by
    have ht : (3 : ℤ).toNat = 3 := by decide
    norm_num [alphaList, alphaCount, ht, List.range_succ]
  have hδ1 : deltaList (max 0 (cex3.period - 1/3 * cex3.period)) 3 1 = [2/3, 5/3, 8/3] := by
    have ht : (3 : ℤ).toNat = 3 := by decide
    norm_num [cex3, deltaList, deltaCount, ht, List.range_succ]
  have hδ2 : deltaList (max 0 (cex3.period - 2/3 * cex3.period)) 3 1 = [1/3, 4/3, 7/3] := by
    have ht : (3 : ℤ).toNat = 3 := by decide
    norm_num [cex3, deltaList, deltaCount, ht, List.range_succ]
  have hn1 : ¬ bdrFeasible cex3 1 (1/3) (2/3) := by
    rw [cex3_feas]; norm_num [sbf_bdr]
  have hn2 : ¬ bdrFeasible cex3 1 (1/3) (5/3) := by
    rw [cex3_feas]; norm_num [sbf_bdr]
  have hn3 : ¬ bdrFeasible cex3 1 (1/3) (8/3) := by
    rw [cex3_feas]; norm_num [sbf_bdr]
  have hp : bdrFeasible cex3 1 (2/3) (1/3) := by
    rw [cex3_feas]; norm_num [sbf_bdr]
  have hds1 : deltaSearch cex3 1 (1/3) [2/3, 5/3, 8/3] = none := by
    rw [deltaSearch, if_neg hn1, deltaSearch, if_neg hn2, deltaSearch, if_neg hn3, deltaSearch]
  have hds2 : deltaSearch cex3 1 (2/3) [1/3, 4/3, 7/3] = some (1/3) := by
    rw [deltaSearch, if_pos hp]
  have h1 : deltaSearch cex3 1 (1/3)
      (deltaList (max 0 (cex3.period - 1/3 * cex3.period)) 3 1) = none := by
    rw [hδ1]; exact hds1
  have h2 : deltaSearch cex3 1 (2/3)
      (deltaList (max 0 (cex3.period - 2/3 * cex3.period)) 3 1) = some (1/3) := by
    rw [hδ2]; exact hds2
  rw [bdrFirstFeasiblePair, hU, hmax]
  push_cast
  rw [hα, bdrFirstSearch_cons_none cex3 1 1 3 (1/3) [2/3, 1] h1,
    bdrFirstSearch_cons_some cex3 1 1 3 (2/3) (1/3) [1] h2]

/-- C3 counterexample: for a component with one task (WCET 1, period 3)
and server period 1, with steps 1/3 and 1, the first feasible pair in the
search order is (2/3, 1/3) but the function returns its 3-decimal rounding
(0.667, 0.333), which is a different pair. -/
theorem compute_bdr_counterexample :
    compute_bdr_interface cex3 1 (1/3) 1 = some (667/1000, 333/1000)
    ∧ bdrFirstFeasiblePair cex3 1 (1/3) 1 = some (2/3, 1/3)
    ∧ ¬ (((667 : ℚ)/1000, (333 : ℚ)/1000) = ((2 : ℚ)/3, (1 : ℚ)/3)) := by
  have hr1 : pyRound3 (2/3) = 667/1000 := by
    norm_num [pyRound3, pyRoundInt]
  have hr2 : pyRound3 (1/3) = 333/1000 := by
    norm_num [pyRound3, pyRoundInt]
  refine ⟨?_, cex3_first, by norm_num⟩
  have h1 : compute_bdr_interface cex3 1 (1/3) 1 =
      Option.map (fun p : ℚ × ℚ => (pyRound3 p.1, pyRound3 p.2))
        (bdrFirstFeasiblePair cex3 1 (1/3) 1) := by
    rw [compute_bdr_interface, bdrFirstFeasiblePair]
    exact bdrSearch_eq_map cex3 1 1 _ _
  rw [h1, cex3_first]
  simp only [Option.map_some']
  rw [hr1, hr2]

/-! ## Simulator: generic lookup and queue lemmas -/

theorem find?_mapUpdate {α : Type} (key : α → String) (upd : α → α)
    (hupd : ∀ x, key (upd x) = key x) (a : String) (l : List α) :
    (l.map (fun x => if key x = a then upd x else x)).find? (fun x => decide (key x = a))
      = (l.find? (fun x => decide (key x = a))).map upd := by
  induction l with
  | nil => simp
  | cons x xs ih =>
    by_cases h : key x = a
    · rw [List.map_cons, if_pos h]
      rw [List.find?_cons_of_pos _ (by simp [hupd, h]),
        List.find?_cons_of_pos _ (by simp [h])]
      simp
    · rw [List.map_cons, if_neg h]
      rw [List.find?_cons_of_neg _ (by simp [h]),
        List.find?_cons_of_neg _ (by simp [h])]
      exact ih

theorem find?_key_of_mem {α : Type} (key : α → String) (l : List α)
    (hnd : (l.map key).Nodup) (x : α) (hx : x ∈ l) :
    l.find? (fun y => decide (key y = key x)) = some x := by
  induction l with
  | nil => simp at hx
  | cons a as ih =>
    rw [List.map_cons] at hnd
    obtain ⟨hna, hnd'⟩ := List.nodup_cons.1 hnd
    rcases List.mem_cons.1 hx with rfl | hx
    · exact List.find?_cons_of_pos _ (by simp)
    · have hne : key a ≠ key x := fun he => hna (he ▸ List.mem_map_of_mem key hx)
      rw [List.find?_cons_of_neg _ (by simpa using hne)]
      exact ih hnd' hx

theorem popMin_mem : ∀ (l : List Event) (e : Event) (rest : List Event),
    popMin l = some (e, rest) → e ∈ l := by
  intro l
  induction l with
  | nil => intro e rest h; simp [popMin] at h
  | cons a as ih =>
    intro e rest h
    rw [popMin] at h
    rcases hm : popMin as with _ | p <;> rw [hm] at h <;> simp only at h
    · injection h with h1
      injection h1 with h1 h2
      exact h1 ▸ List.mem_cons_self a as
    · obtain ⟨m, rest'⟩ := p
      by_cases hlt : m.time < a.time
      · rw [if_pos hlt] at h
        injection h with h1
        injection h1 with h1 h2
        exact h1 ▸ List.mem_cons_of_mem a (ih m rest' hm)
      · rw [if_neg hlt] at h
        injection h with h1
        injection h1 with h1 h2
        exact h1 ▸ List.mem_cons_self a as

theorem popMin_eq_none (l : List Event) : popMin l = none ↔ l = [] := by
  cases l with
  | nil => simp [popMin]
  | cons a as =>
    rw [popMin]
    split
    · simp
    · split <;> simp

theorem popMin_perm : ∀ (l : List Event) (e : Event) (rest : List Event),
    popMin l = some (e, rest) → l.Perm (e :: rest) := by
  intro l
  induction l with
  | nil => intro e rest h; simp [popMin] at h
  | cons a as ih =>
    intro e rest h
    rw [popMin] at h
    rcases hm : popMin as with _ | p <;> rw [hm] at h <;> simp only at h
    · injection h with h1
      injection h1 with h1 h2
      subst h1; subst h2
      rw [(popMin_eq_none as).1 hm]
    · obtain ⟨m, rest'⟩ := p
      replace h : (if m.time < a.time then some (m, a :: rest') else some (a, as))
          = some (e, rest) := h
      by_cases hlt : m.time < a.time
      · rw [if_pos hlt] at h
        injection h with h1
        injection h1 with h1 h2
        subst h1; subst h2
        exact ((ih m rest' hm).cons a).trans (List.Perm.swap m a rest')
      · rw [if_neg hlt] at h
        injection h with h1
        injection h1 with h1 h2
        subst h1; subst h2
        exact List.Perm.refl _

theorem popMin_min : ∀ (l : List Event) (e : Event) (rest : List Event),
    popMin l = some (e, rest) → ∀ x ∈ rest, e.time ≤ x.time := by
  intro l
  induction l with
  | nil => intro e rest h; simp [popMin] at h
  | cons a as ih =>
    intro e rest h
    rw [popMin] at h
    rcases hm : popMin as with _ | p <;> rw [hm] at h <;> simp only at h
    · injection h with h1
      injection h1 with h1 h2
      subst h1; subst h2
      intro x hx; simp at hx
    · obtain ⟨m, rest'⟩ := p
      replace h : (if m.time < a.time then some (m, a :: rest') else some (a, as))
          = some (e, rest) := h
      by_cases hlt : m.time < a.time
      · rw [if_pos hlt] at h
        injection h with h1
        injection h1 with h1 h2
        subst h1; subst h2
        intro x hx
        rcases List.mem_cons.1 hx with rfl | hx
        · exact hlt.le
        · exact ih m rest' hm x hx
      · rw [if_neg hlt] at h
        injection h with h1
        injection h1 with h1 h2
        subst h1; subst h2
        push_neg at hlt
        intro x hx
        have hperm := popMin_perm as m rest' hm
        rcases List.mem_cons.1 (hperm.mem_iff.1 hx) with rfl | hx'
        · exact hlt
        · exact le_trans hlt (ih m rest' hm x hx')

theorem popMin_isSome (l : List Event) (h : l ≠ []) : ∃ p, popMin l = some p := by
  cases l with
  | nil => exact absurd rfl h
  | cons a as =>
    rw [popMin]
    rcases hm : popMin as with _ | p
    · exact ⟨(a, []), rfl⟩
    · obtain ⟨m, rest⟩ := p
      by_cases hlt : m.time < a.time
      · refine ⟨(m, a :: rest), ?_⟩
        show (if m.time < a.time then some (m, a :: rest) else some (a, as)) = some (m, a :: rest)
        rw [if_pos hlt]
      · refine ⟨(a, as), ?_⟩
        show (if m.time < a.time then some (m, a :: rest) else some (a, as)) = some (a, as)
        rw [if_neg hlt]

theorem foldl_min_le (xs : List ℚ) : ∀ x : ℚ, xs.foldl min x ≤ x ∧ ∀ y ∈ xs, xs.foldl min x ≤ y := by
  induction xs with
  | nil => intro x; exact ⟨le_refl x, by simp⟩
  | cons a as ih =>
    intro x
    rw [List.foldl_cons]
    refine ⟨le_trans (ih (min x a)).1 (min_le_left x a), ?_⟩
    intro y hy
    rcases List.mem_cons.1 hy with rfl | hy
    · exact le_trans (ih (min x y)).1 (min_le_right x y)
    · exact (ih (min x a)).2 y hy

theorem foldl_min_mem (xs : List ℚ) : ∀ x : ℚ, xs.foldl min x = x ∨ xs.foldl min x ∈ xs := by
  induction xs with
  | nil => intro x; exact Or.inl rfl
  | cons a as ih =>
    intro x
    rw [List.foldl_cons]
    rcases ih (min x a) with h | h
    · rcases min_choice x a with hc | hc
      · exact Or.inl (by rw [h, hc])
      · exact Or.inr (by rw [h, hc]; exact List.mem_cons_self a as)
    · exact Or.inr (List.mem_cons_of_mem a h)

theorem minTime?_le (l : List Event) (m : ℚ) (h : minTime? l = some m) :
    ∀ e ∈ l, m ≤ e.time := by
  cases l with
  | nil => simp [minTime?] at h
  | cons a as =>
    rw [minTime?, List.map_cons] at h
    rw [List.min?] at h
    injection h with h1
    intro e he
    rcases List.mem_cons.1 he with rfl | he
    · rw [← h1]; exact (foldl_min_le (as.map (fun e => e.time)) e.time).1
    · rw [← h1]
      exact (foldl_min_le (as.map (fun e => e.time)) a.time).2 _ (List.mem_map_of_mem _ he)

theorem minTime?_mem (l : List Event) (m : ℚ) (h : minTime? l = some m) :
    ∃ e ∈ l, e.time = m := by
  cases l with
  | nil => simp [minTime?] at h
  | cons a as =>
    rw [minTime?, List.map_cons] at h
    rw [List.min?] at h
    injection h with h1
    rcases foldl_min_mem (as.map (fun e => e.time)) a.time with hc | hc
    · exact ⟨a, List.mem_cons_self a as, by rw [← h1, hc]⟩
    · obtain ⟨e, he, hev⟩ := List.mem_map.1 hc
      exact ⟨e, List.mem_cons_of_mem a he, by rw [← h1, hev]⟩

theorem minTime?_isSome (l : List Event) (h : l ≠ []) : ∃ m, minTime? l = some m := by
  cases l with
  | nil => exact absurd rfl h
  | cons a as => exact ⟨(as.map (fun e => e.time)).foldl min a.time, by rw [minTime?, List.map_cons, List.min?]⟩

/-! ## Simulator: selection and update lemmas -/

theorem selectPair_props (st : SimState) (c : SComp) (τ : STask)
    (h : selectPair st = some (c, τ)) :
    c ∈ st.comps ∧ c.component_id ∈ st.ready ∧ 0 < c.budget_left ∧
      τ ∈ compTasks st c ∧ 0 < τ.remaining := by
  rw [selectPair] at h
  rcases hc' : (if st.coreSched = "EDF" then minByKey (readyMinDeadline st) (activeComps st)
      else minByKey (fun c => prioKey c.priority) (activeComps st)) with _ | c' <;>
    rw [hc'] at h <;> simp only at h
  · exact absurd h (by simp)
  · rcases hτ' : (if c'.scheduler = "EDF"
        then minByKey (fun t => t.deadline) (filterP (fun t => 0 < t.remaining) (compTasks st c'))
        else minByKey (fun t => prioKey t.priority) (filterP (fun t => 0 < t.remaining) (compTasks st c')))
        with _ | τ' <;> rw [hτ'] at h <;> simp only at h
    · exact absurd h (by simp)
    · injection h with h1
      injection h1 with h1a h1b
      rw [h1a] at hc' hτ'
      rw [h1b] at hτ'
      have hcmem : c ∈ activeComps st := by
        by_cases hs : st.coreSched = "EDF"
        · rw [if_pos hs] at hc'; exact minByKey_mem _ _ _ hc'
        · rw [if_neg hs] at hc'; exact minByKey_mem _ _ _ hc'
      have hτmem : τ ∈ filterP (fun t => 0 < t.remaining) (compTasks st c) := by
        by_cases hs : c.scheduler = "EDF"
        · rw [if_pos hs] at hτ'; exact minByKey_mem _ _ _ hτ'
        · rw [if_neg hs] at hτ'; exact minByKey_mem _ _ _ hτ'
      obtain ⟨hcm, hready, hbud, _⟩ := (filterP_mem _ _ _).1 hcmem
      obtain ⟨hτm, hτrem⟩ := (filterP_mem _ _ _).1 hτmem
      exact ⟨hcm, hready, hbud, hτm, hτrem⟩

theorem applyEvent_comps_ids (st : SimState) (ev : Event) :
    (applyEvent st ev).comps.map (fun c => c.component_id)
      = st.comps.map (fun c => c.component_id) := by
  rw [applyEvent]
  split
  · rename_i cid hk
    rcases hl : lookupComp st cid with _ | c
    · rfl
    · simp only [List.map_map]
      apply List.map_congr_left
      intro x _
      by_cases hx : x.component_id = cid
      · simp [hx]
      · simp [hx]
  · rename_i tn hk
    rcases hl : lookupTask st tn with _ | j
    · rfl
    · simp only
      rcases hp : lookupComp st j.component_id with _ | pc <;> rfl

theorem applyEvent_tasks_names (st : SimState) (ev : Event) :
    (applyEvent st ev).tasks.map (fun t => t.task_name)
      = st.tasks.map (fun t => t.task_name) := by
  rw [applyEvent]
  split
  · rename_i cid hk
    rcases hl : lookupComp st cid with _ | c <;> rfl
  · rename_i tn hk
    rcases hl : lookupTask st tn with _ | j
    · rfl
    · simp only
      rcases hp : lookupComp st j.component_id with _ | pc <;>
        · simp only [List.map_map]
          apply List.map_congr_left
          intro x _
          by_cases hx : x.task_name = tn
          · simp [hx]
          · simp [hx]

theorem min_shift (x a b mm : ℚ) :
    min (min (x + a) (x + b)) mm = x + min (min a b) (mm - x) := by
  rw [min_add_add_left]
  conv_lhs => rw [show mm = x + (mm - x) by ring]
  rw [min_add_add_left]

theorem lookupComp_of_mem (st : SimState) (c : SComp)
    (hnd : (st.comps.map (fun x => x.component_id)).Nodup) (hc : c ∈ st.comps) :
    lookupComp st c.component_id = some c := by
  rw [lookupComp]
  exact find?_key_of_mem (fun x => x.component_id) st.comps hnd c hc

theorem lookupTask_of_mem (st : SimState) (τ : STask)
    (hnd : (st.tasks.map (fun x => x.task_name)).Nodup) (hτ : τ ∈ st.tasks) :
    lookupTask st τ.task_name = some τ := by
  rw [lookupTask]
  exact find?_key_of_mem (fun x => x.task_name) st.tasks hnd τ hτ

theorem taskUpd_name (dt run_until : ℚ) (x : STask) :
    (taskUpd dt run_until x).task_name = x.task_name := by
  rw [taskUpd]; split <;> rfl

theorem taskUpd_remaining (dt run_until : ℚ) (x : STask) :
    (taskUpd dt run_until x).remaining = x.remaining - dt := by
  rw [taskUpd]; split <;> rfl

theorem taskUpd_static (dt run_until : ℚ) (x : STask) :
    (taskUpd dt run_until x).component_id = x.component_id ∧
    (taskUpd dt run_until x).period = x.period ∧
    (taskUpd dt run_until x).next_release = x.next_release := by
  rw [taskUpd]; constructor
  · split <;> rfl
  constructor
  · split <;> rfl
  · split <;> rfl

theorem simStep_eq_runPhase (horizon : ℚ) (st st1 : SimState) (ev : Event) (rest : List Event)
    (c : SComp) (τ : STask)
    (hpop : popMin st.evq = some (ev, rest))
    (hst1 : st1 = applyEvent { st with clock := ev.time, evq := rest } ev)
    (hsel : selectPair st1 = some (c, τ)) :
    simStep horizon st = runPhase st1 horizon c τ := by
  obtain ⟨_, hready, _, _, _⟩ := selectPair_props st1 c τ hsel
  have hne : st1.ready ≠ [] := List.ne_nil_of_mem hready
  rw [simStep, hpop]
  simp only
  rw [← hst1, if_neg hne, hsel]

/-- C1: in every iteration of `simulate_core`'s loop in which a component
and a task are selected, the run length dt equals the minimum of the
component's `budget_left`, the task's remaining execution, and the time
from the current clock to the earliest queued event; the clock advances
by exactly dt, and both the component's `budget_left` and the task's
`remaining` are decremented by exactly dt. -/
theorem run_length_is_min (horizon : ℚ) (st st1 : SimState) (ev : Event) (rest : List Event)
    (c : SComp) (τ : STask) (m : ℚ)
    (hpop : popMin st.evq = some (ev, rest))
    (hst1 : st1 = applyEvent { st with clock := ev.time, evq := rest } ev)
    (hndc : (st1.comps.map (fun x => x.component_id)).Nodup)
    (hndt : (st1.tasks.map (fun x => x.task_name)).Nodup)
    (hsel : selectPair st1 = some (c, τ))
    (hmin : minTime? st1.evq = some m) :
    (simStep horizon st).clock = st1.clock + min (min c.budget_left τ.remaining) (m - st1.clock)
    ∧ (lookupComp (simStep horizon st) c.component_id).map (fun x => x.budget_left)
        = some (c.budget_left - min (min c.budget_left τ.remaining) (m - st1.clock))
    ∧ (lookupTask (simStep horizon st) τ.task_name).map (fun x => x.remaining)
        = some (τ.remaining - min (min c.budget_left τ.remaining) (m - st1.clock)) := by
  obtain ⟨hcm, hready, _, hτm, _⟩ := selectPair_props st1 c τ hsel
  have hτmem : τ ∈ st1.tasks := (List.mem_filter.1 hτm).1
  have hstep := simStep_eq_runPhase horizon st st1 ev rest c τ hpop hst1 hsel
  have hnext : nextEvtTime st1 horizon = m := by rw [nextEvtTime, hmin]; rfl
  have hrun : min (min (st1.clock + c.budget_left) (st1.clock + τ.remaining)) (nextEvtTime st1 horizon)
      = st1.clock + min (min c.budget_left τ.remaining) (m - st1.clock) := by
    rw [hnext, min_shift]
  have hclock : (runPhase st1 horizon c τ).clock
      = st1.clock + min (min c.budget_left τ.remaining) (m - st1.clock) := by
    simp only [runPhase]
    exact hrun
  refine ⟨by rw [hstep]; exact hclock, ?_, ?_⟩
  · rw [hstep, lookupComp]
    have hcomps : (runPhase st1 horizon c τ).comps
        = st1.comps.map (fun x => if x.component_id = c.component_id then
            budgetUpd (min (min (st1.clock + c.budget_left) (st1.clock + τ.remaining))
              (nextEvtTime st1 horizon) - st1.clock) x else x) := by
      simp only [runPhase]
    rw [hcomps, find?_mapUpdate (fun x => x.component_id)
        (budgetUpd (min (min (st1.clock + c.budget_left) (st1.clock + τ.remaining))
          (nextEvtTime st1 horizon) - st1.clock)) (fun x => rfl) c.component_id st1.comps,
      find?_key_of_mem (fun x => x.component_id) st1.comps hndc c hcm]
    simp only [Option.map_some', budgetUpd]
    rw [hrun]
    ring_nf
  · rw [hstep, lookupTask]
    have htasks : (runPhase st1 horizon c τ).tasks
        = st1.tasks.map (fun x => if x.task_name = τ.task_name then
            taskUpd (min (min (st1.clock + c.budget_left) (st1.clock + τ.remaining))
                (nextEvtTime st1 horizon) - st1.clock)
              (min (min (st1.clock + c.budget_left) (st1.clock + τ.remaining))
                (nextEvtTime st1 horizon)) x else x) := by
      simp only [runPhase]
    rw [htasks, find?_mapUpdate (fun x => x.task_name)
        (taskUpd (min (min (st1.clock + c.budget_left) (st1.clock + τ.remaining))
            (nextEvtTime st1 horizon) - st1.clock)
          (min (min (st1.clock + c.budget_left) (st1.clock + τ.remaining))
            (nextEvtTime st1 horizon))) (fun x => taskUpd_name _ _ x) τ.task_name st1.tasks,
      find?_key_of_mem (fun x => x.task_name) st1.tasks hndt τ hτmem]
    simp only [Option.map_some', taskUpd_remaining]
    rw [hrun]
    ring_nf

/-- C10: a task whose response-time list is empty at the end of
`simulate_core` (no job completed within the horizon) is reported with
`avg_rt = 0`, `max_rt = 0` and `missed = False` — i.e. as schedulable
with zero response times. -/
theorem empty_response_metrics (speed : ℚ) (sched : String) (comps0 : List SComp)
    (tasks0 : List STask) (horizon : ℚ) (fuel : ℕ) (c : SComp) (τ : STask)
    (hc : c ∈ (simRun horizon fuel (initState speed sched comps0 tasks0)).comps)
    (hτ : τ ∈ compTasks (simRun horizon fuel (initState speed sched comps0 tasks0)) c)
    (hrts : τ.response_times = []) :
    (τ.task_name, Metrics.mk 0 0 False (c.budget / c.period)) ∈
      simulate_core speed sched comps0 tasks0 horizon fuel := by
  rw [simulate_core, aggregate]
  apply List.mem_flatMap.2
  refine ⟨c, hc, ?_⟩
  have hm : taskMetrics c τ = Metrics.mk 0 0 False (c.budget / c.period) := by
    rw [taskMetrics, hrts]
    simp [eq_iff_iff]
  rw [← hm]
  exact List.mem_map_of_mem _ hτ

/-- Witness for C10: for the one-component one-task configuration run to
horizon 0 (nothing executes), the task is reported with zero metrics and
no deadline miss. -/
theorem empty_response_metrics_witness :
    ("WT", Metrics.mk 0 0 False ((2 : ℚ)/5)) ∈ simulate_core 1 "RM" [wComp] [wTask] 0 3 := by
  have h0 : simRun 0 3 (initState 1 "RM" [wComp] [wTask]) = initState 1 "RM" [wComp] [wTask] := by
    rw [simRun, if_neg ?g]
    case g => simp [simGuard, initState]
  exact empty_response_metrics 1 "RM" [wComp] [wTask] 0 3 wComp wTask
    (by rw [h0]; simp [initState, wComp])
    (by rw [h0]; simp [initState, compTasks, wTask, wComp])
    rfl

/-- Witness for C1: in the concrete one-component, one-task state whose
release event fires at time 0, the selected pair runs for
dt = min(min 2 1, 5 - 0) = 1 and the state advances accordingly. -/
theorem run_length_is_min_witness :
    (simStep 10 wStateC1).clock
        = wStep1.clock + min (min wComp.budget_left wTaskRel.remaining) (5 - wStep1.clock)
    ∧ (lookupComp (simStep 10 wStateC1) wComp.component_id).map (fun x => x.budget_left)
        = some (wComp.budget_left - min (min wComp.budget_left wTaskRel.remaining) (5 - wStep1.clock))
    ∧ (lookupTask (simStep 10 wStateC1) wTaskRel.task_name).map (fun x => x.remaining)
        = some (wTaskRel.remaining - min (min wComp.budget_left wTaskRel.remaining) (5 - wStep1.clock)) := by
  have hpop : popMin wStateC1.evq = some (Event.mk 0 (.release "WT"), []) := rfl
  have hst1 : wStep1 = applyEvent { wStateC1 with clock := 0, evq := [] }
      (Event.mk 0 (.release "WT")) := rfl
  have hstep1 : wStep1 =
      { speed := 1, coreSched := "RM", comps := [wComp], tasks := [wTaskRel],
        clock := 0, evq := [Event.mk 5 (.release "WT")], ready := ["WC"] } := by
    rw [wStep1]
    norm_num [applyEvent, wStateC1, lookupTask, lookupComp, wTask, wComp, wTaskRel, insertReady]
  have hndc : (wStep1.comps.map (fun x => x.component_id)).Nodup := by
    rw [hstep1]; simp
  have hndt : (wStep1.tasks.map (fun x => x.task_name)).Nodup := by
    rw [hstep1]; simp
  have hsel : selectPair wStep1 = some (wComp, wTaskRel) := by
    rw [hstep1]
    norm_num [selectPair, activeComps, filterP, compTasks, minByKey, prioKey,
      wComp, wTask, wTaskRel, insertReady]
  have hmin : minTime? wStep1.evq = some 5 := by
    rw [hstep1]
    norm_num [minTime?, List.min?]
  exact run_length_is_min 10 wStateC1 wStep1 (Event.mk 0 (.release "WT")) [] wComp wTaskRel 5
    hpop hst1 hndc hndt hsel hmin

/-! ## Simulator: budget bounds, replenishment and conservation (C2) -/

theorem key_nodup_eq {α : Type} (key : α → String) (l : List α)
    (hnd : (l.map key).Nodup) (x y : α) (hx : x ∈ l) (hy : y ∈ l) (hk : key x = key y) :
    x = y := by
  have h1 : l.find? (fun z => decide (key z = key x)) = some x :=
    find?_key_of_mem key l hnd x hx
  have h2 : l.find? (fun z => decide (key z = key y)) = some y :=
    find?_key_of_mem key l hnd y hy
  rw [hk] at h1
  rw [h1] at h2
  injection h2

theorem find?_mapUpdate_other {α : Type} (key : α → String) (upd : α → α)
    (hupd : ∀ x, key (upd x) = key x) (a b : String) (hab : a ≠ b) (l : List α) :
    (l.map (fun x => if key x = b then upd x else x)).find? (fun x => decide (key x = a))
      = l.find? (fun x => decide (key x = a)) := by
  induction l with
  | nil => simp
  | cons x xs ih =>
    by_cases h : key x = b
    · rw [List.map_cons, if_pos h]
      have hna : ¬ key (upd x) = a := by rw [hupd x, h]; exact fun hh => hab hh.symm
      have hna' : ¬ key x = a := by rw [h]; exact fun hh => hab hh.symm
      rw [List.find?_cons_of_neg _ (by simpa using hna),
        List.find?_cons_of_neg _ (by simpa using hna')]
      exact ih
    · rw [List.map_cons, if_neg h]
      by_cases ha : key x = a
      · rw [List.find?_cons_of_pos _ (by simp [ha]), List.find?_cons_of_pos _ (by simp [ha])]
      · rw [List.find?_cons_of_neg _ (by simp [ha]), List.find?_cons_of_neg _ (by simp [ha])]
        exact ih

theorem lookupComp_exists (st : SimState) (cid : String)
    (h : ∃ c ∈ st.comps, c.component_id = cid) :
    ∃ c, lookupComp st cid = some c ∧ c ∈ st.comps ∧ c.component_id = cid := by
  obtain ⟨c, hc, hcid⟩ := h
  rcases hfind : lookupComp st cid with _ | c₀
  · rw [lookupComp, List.find?_eq_none] at hfind
    have := hfind c hc
    simp at this
    exact absurd hcid this
  · rw [lookupComp] at hfind
    refine ⟨c₀, rfl, List.mem_of_find?_eq_some hfind, ?_⟩
    have := List.find?_some hfind
    simpa using this

theorem lookupTask_exists (st : SimState) (tn : String)
    (h : ∃ τ ∈ st.tasks, τ.task_name = tn) :
    ∃ τ, lookupTask st tn = some τ ∧ τ ∈ st.tasks ∧ τ.task_name = tn := by
  obtain ⟨τ, hτ, htn⟩ := h
  rcases hfind : lookupTask st tn with _ | τ₀
  · rw [lookupTask, List.find?_eq_none] at hfind
    have := hfind τ hτ
    simp at this
    exact absurd htn this
  · rw [lookupTask] at hfind
    refine ⟨τ₀, rfl, List.mem_of_find?_eq_some hfind, ?_⟩
    have := List.find?_some hfind
    simpa using this

theorem applyEvent_replenish_eq (st : SimState) (tm : ℚ) (cid : String) (c : SComp)
    (hl : lookupComp st cid = some c) :
    applyEvent st (Event.mk tm (EvKind.replenish cid))
      = { st with
          comps := st.comps.map (fun x =>
            if x.component_id = cid
            then { x with budget_left := x.budget, next_replenish := st.clock + x.period }
            else x),
          evq := Event.mk (st.clock + c.period) (EvKind.replenish cid) :: st.evq,
          ready := if ∃ t ∈ st.tasks, t.component_id = cid ∧ 0 < t.remaining
                   then insertReady st.ready cid else st.ready } := by
  rw [applyEvent]
  simp only
  rw [hl]

theorem applyEvent_replenish_none (st : SimState) (tm : ℚ) (cid : String)
    (hl : lookupComp st cid = none) :
    applyEvent st (Event.mk tm (EvKind.replenish cid)) = st := by
  rw [applyEvent]
  simp only
  rw [hl]

theorem applyEvent_release_fields (st : SimState) (tm : ℚ) (tn : String) (j : STask)
    (hl : lookupTask st tn = some j) :
    (applyEvent st (Event.mk tm (EvKind.release tn))).tasks
        = st.tasks.map (fun x =>
            if x.task_name = tn
            then { x with
                   remaining := x.wcet / st.speed, release_time := st.clock,
                   deadline := st.clock + x.period,
                   next_release := x.next_release + x.period }
            else x)
    ∧ (applyEvent st (Event.mk tm (EvKind.release tn))).evq
        = Event.mk (j.next_release + j.period) (EvKind.release tn) :: st.evq
    ∧ (applyEvent st (Event.mk tm (EvKind.release tn))).comps = st.comps
    ∧ (applyEvent st (Event.mk tm (EvKind.release tn))).clock = st.clock := by
  simp only [applyEvent, hl]
  rcases lookupComp st j.component_id with _ | pc
  · exact ⟨rfl, rfl, rfl, rfl⟩
  · exact ⟨rfl, rfl, rfl, rfl⟩

theorem applyEvent_release_none (st : SimState) (tm : ℚ) (tn : String)
    (hl : lookupTask st tn = none) :
    applyEvent st (Event.mk tm (EvKind.release tn)) = st := by
  rw [applyEvent]
  simp only
  rw [hl]

theorem popMin_facts (st : SimState) (ev : Event) (rest : List Event)
    (hq : QInv st) (hpop : popMin st.evq = some (ev, rest)) :
    ev ∈ st.evq ∧ (∀ e ∈ rest, e ∈ st.evq) ∧ (∀ e ∈ rest, ev.time ≤ e.time) ∧
    ((ev :: rest).filterMap (fun e => e.kind.relName)).Nodup ∧
    ((ev :: rest).filterMap (fun e => e.kind.repName)).Nodup := by
  have hperm : st.evq.Perm (ev :: rest) := popMin_perm _ _ _ hpop
  refine ⟨popMin_mem _ _ _ hpop, ?_, popMin_min _ _ _ hpop, ?_, ?_⟩
  · intro e he
    exact hperm.mem_iff.2 (List.mem_cons_of_mem ev he)
  · exact (hperm.filterMap (fun e => e.kind.relName)).nodup_iff.1 hq.2.2.1
  · exact (hperm.filterMap (fun e => e.kind.repName)).nodup_iff.1 hq.2.2.2.1

theorem mem_map_update {α : Type} (p : α → Prop) [DecidablePred p] (upd : α → α)
    (l : List α) (y : α) (hy : y ∈ l.map (fun x => if p x then upd x else x)) :
    ∃ x ∈ l, (p x ∧ y = upd x) ∨ (¬ p x ∧ y = x) := by
  obtain ⟨x, hx, hxy⟩ := List.mem_map.1 hy
  by_cases hp : p x
  · exact ⟨x, hx, Or.inl ⟨hp, by rw [← hxy, if_pos hp]⟩⟩
  · exact ⟨x, hx, Or.inr ⟨hp, by rw [← hxy, if_neg hp]⟩⟩

theorem exists_id_map_update (l : List SComp) (p : SComp → Prop) [DecidablePred p]
    (upd : SComp → SComp) (hupd : ∀ x, (upd x).component_id = x.component_id)
    (cid : String) (h : ∃ c ∈ l, c.component_id = cid) :
    ∃ c ∈ l.map (fun x => if p x then upd x else x), c.component_id = cid := by
  obtain ⟨c, hc, hcid⟩ := h
  refine ⟨if p c then upd c else c, List.mem_map_of_mem _ hc, ?_⟩
  by_cases hp : p c
  · rw [if_pos hp, hupd, hcid]
  · rw [if_neg hp, hcid]

theorem exists_name_map_update (l : List STask) (p : STask → Prop) [DecidablePred p]
    (upd : STask → STask) (hupd : ∀ x, (upd x).task_name = x.task_name)
    (tn : String) (h : ∃ τ ∈ l, τ.task_name = tn) :
    ∃ τ ∈ l.map (fun x => if p x then upd x else x), τ.task_name = tn := by
  obtain ⟨τ, hτ, htn⟩ := h
  refine ⟨if p τ then upd τ else τ, List.mem_map_of_mem _ hτ, ?_⟩
  by_cases hp : p τ
  · rw [if_pos hp, hupd, htn]
  · rw [if_neg hp, htn]

theorem map_update_ids (l : List SComp) (p : SComp → Prop) [DecidablePred p]
    (upd : SComp → SComp) (hupd : ∀ x, (upd x).component_id = x.component_id) :
    (l.map (fun x => if p x then upd x else x)).map (fun c => c.component_id)
      = l.map (fun c => c.component_id) := by
  rw [List.map_map]
  apply List.map_congr_left
  intro x _
  by_cases hp : p x
  · simp [hp, hupd]
  · simp [hp]

theorem map_update_names (l : List STask) (p : STask → Prop) [DecidablePred p]
    (upd : STask → STask) (hupd : ∀ x, (upd x).task_name = x.task_name) :
    (l.map (fun x => if p x then upd x else x)).map (fun t => t.task_name)
      = l.map (fun t => t.task_name) := by
  rw [List.map_map]
  apply List.map_congr_left
  intro x _
  by_cases hp : p x
  · simp [hp, hupd]
  · simp [hp]

theorem filterMap_some_comp {α β : Type} (f : α → β) (l : List α) :
    l.filterMap (fun x => some (f x)) = l.map f := by
  induction l with
  | nil => rfl
  | cons a as ih =>
    show f a :: as.filterMap (fun x => some (f x)) = f a :: as.map f
    rw [ih]

theorem filterMap_none_comp {α β : Type} (l : List α) :
    l.filterMap (fun _ => (none : Option β)) = [] := by
  induction l with
  | nil => rfl
  | cons a as ih => rw [List.filterMap_cons_none rfl, ih]

theorem filterMap_evRel (l : List STask) :
    ((l.map (fun t => Event.mk 0 (EvKind.release t.task_name))).filterMap
        (fun e => e.kind.relName)) = l.map (fun t => t.task_name) := by
  rw [List.filterMap_map]
  have hc : ((fun e => e.kind.relName) ∘ fun t => Event.mk 0 (EvKind.release t.task_name))
      = fun t : STask => some t.task_name := by
    funext t
    rfl
  rw [hc]
  exact filterMap_some_comp _ l

theorem filterMap_evRep (l : List STask) :
    ((l.map (fun t => Event.mk 0 (EvKind.release t.task_name))).filterMap
        (fun e => e.kind.repName)) = [] := by
  rw [List.filterMap_map]
  have hc : ((fun e => e.kind.repName) ∘ fun t => Event.mk 0 (EvKind.release t.task_name))
      = fun _ : STask => (none : Option String) := by
    funext t
    rfl
  rw [hc]
  exact filterMap_none_comp l

theorem initEvq_mem (comps : List SComp) (tasks : List STask) (e : Event)
    (he : e ∈ initEvq comps tasks) :
    e.time = 0 ∧
    ((∃ c ∈ comps, e.kind = EvKind.replenish c.component_id) ∨
     (∃ t ∈ tasks, e.kind = EvKind.release t.task_name)) := by
  rw [initEvq] at he
  obtain ⟨c, hc, he⟩ := List.mem_flatMap.1 he
  rcases List.mem_cons.1 he with rfl | he
  · exact ⟨rfl, Or.inl ⟨c, hc, rfl⟩⟩
  · obtain ⟨t, ht, rfl⟩ := List.mem_map.1 he
    exact ⟨rfl, Or.inr ⟨t, List.mem_of_mem_filter ht, rfl⟩⟩

theorem initEvq_relNames (comps : List SComp) (tasks : List STask) :
    (initEvq comps tasks).filterMap (fun e => e.kind.relName)
      = comps.flatMap (fun c =>
          (tasks.filter (fun t => t.component_id = c.component_id)).map
            (fun t => t.task_name)) := by
  rw [initEvq]
  induction comps with
  | nil => rfl
  | cons c cs ih =>
    rw [List.flatMap_cons, List.flatMap_cons, List.filterMap_append, ih]
    rw [List.filterMap_cons_none rfl, filterMap_evRel]

theorem initEvq_repNames (comps : List SComp) (tasks : List STask) :
    (initEvq comps tasks).filterMap (fun e => e.kind.repName)
      = comps.map (fun c => c.component_id) := by
  rw [initEvq]
  induction comps with
  | nil => rfl
  | cons c cs ih =>
    rw [List.flatMap_cons, List.filterMap_append, ih, List.map_cons]
    show (c.component_id
          :: ((tasks.filter (fun t => t.component_id = c.component_id)).map
              (fun t => Event.mk 0 (EvKind.release t.task_name))).filterMap
            (fun e => e.kind.repName))
        ++ cs.map (fun c => c.component_id)
      = c.component_id :: cs.map (fun c => c.component_id)
    rw [filterMap_evRep]
    rfl

theorem Inv_initState (speed : ℚ) (sched : String) (comps : List SComp) (tasks : List STask)
    (hwf : WFConfig comps tasks) : Inv (initState speed sched comps tasks) := by
  obtain ⟨hndc, hndt, hcb, htp⟩ := hwf
  refine ⟨⟨?_, ?_, ?_, ?_⟩, ⟨?_, ?_, ?_, ?_, ?_⟩, ?_⟩
  · rw [initState]
    simp only [List.map_map]
    simpa [Function.comp] using hndc
  · rw [initState]
    simp only [List.map_map]
    simpa [Function.comp] using hndt
  · rw [initState]
    intro c hc
    obtain ⟨c0, hc0, rfl⟩ := List.mem_map.1 hc
    simpa using hcb c0 hc0
  · rw [initState]
    intro t ht
    obtain ⟨t0, ht0, rfl⟩ := List.mem_map.1 ht
    simpa using htp t0 ht0
  · intro e he
    have h0 := (initEvq_mem comps tasks e he).1
    rw [initState]
    simp only
    rw [h0]
  · intro e he τ hτ _
    rw [initState] at hτ
    simp only at hτ
    obtain ⟨t0, ht0, rfl⟩ := List.mem_map.1 hτ
    rw [(initEvq_mem comps tasks e he).1]
  · rw [initState]
    simp only
    rw [initEvq_relNames]
    rw [List.nodup_flatMap]
    constructor
    · intro c _
      apply List.Nodup.sublist (List.Sublist.map _ (List.filter_sublist tasks))
      exact hndt
    · have hpw : comps.Pairwise fun a b => a.component_id ≠ b.component_id :=
        List.pairwise_map.1 hndc
      refine hpw.imp ?_
      intro a b hab
      intro nm hn1 hn2
      obtain ⟨t1, ht1, rfl⟩ := List.mem_map.1 hn1
      obtain ⟨t2, ht2, he2⟩ := List.mem_map.1 hn2
      have ht1' := List.mem_filter.1 ht1
      have ht2' := List.mem_filter.1 ht2
      have heq : t2 = t1 :=
        key_nodup_eq (fun t => t.task_name) tasks hndt t2 t1 ht2'.1 ht1'.1 he2
      apply hab
      have e1 : t1.component_id = a.component_id := by simpa using ht1'.2
      have e2 : t2.component_id = b.component_id := by simpa using ht2'.2
      rw [← e1, ← heq, e2]
  · rw [initState]
    simp only
    rw [initEvq_repNames]
    exact hndc
  · intro e he
    rcases (initEvq_mem comps tasks e he).2 with ⟨c, hc, hk⟩ | ⟨t, ht, hk⟩
    · rw [evRef, hk]
      rw [initState]
      simp only
      exact ⟨_, List.mem_map_of_mem _ hc, rfl⟩
    · rw [evRef, hk]
      rw [initState]
      simp only
      exact ⟨_, List.mem_map_of_mem _ ht, rfl⟩
  · rw [initState]
    intro c hc
    obtain ⟨c0, hc0, rfl⟩ := List.mem_map.1 hc
    constructor
    · simpa using (hcb c0 hc0).2
    · simp

theorem evRef_replenish (st : SimState) (tm : ℚ) (cid : String) :
    evRef st (Event.mk tm (EvKind.replenish cid)) = (∃ c ∈ st.comps, c.component_id = cid) := rfl

theorem evRef_release (st : SimState) (tm : ℚ) (tn : String) :
    evRef st (Event.mk tm (EvKind.release tn)) = (∃ τ ∈ st.tasks, τ.task_name = tn) := rfl

theorem Inv_applyEvent (st : SimState) (ev : Event) (rest : List Event)
    (hinv : Inv st) (hpop : popMin st.evq = some (ev, rest)) :
    Inv (applyEvent { st with clock := ev.time, evq := rest } ev)
    ∧ (applyEvent { st with clock := ev.time, evq := rest } ev).evq ≠ []
    ∧ (applyEvent { st with clock := ev.time, evq := rest } ev).clock = ev.time := by
  obtain ⟨hwf, hq, hb⟩ := hinv
  obtain ⟨hndc, hndt, hcpb, htper⟩ := hwf
  obtain ⟨hmem, hsub, hmn, hndrel, hndrep⟩ := popMin_facts st ev rest hq hpop
  obtain ⟨tm, k⟩ := ev
  rcases k with cid | tn
  · have href := hq.2.2.2.2 (Event.mk tm (EvKind.replenish cid)) hmem
    rw [evRef_replenish] at href
    obtain ⟨c, hlc, hcmem, hcid⟩ :=
      lookupComp_exists { st with clock := tm, evq := rest } cid href
    have heq := applyEvent_replenish_eq { st with clock := tm, evq := rest } tm cid c hlc
    have heq2 : applyEvent { st with clock := tm, evq := rest } (Event.mk tm (EvKind.replenish cid))
        = { st with
            comps := st.comps.map (fun x =>
              if x.component_id = cid
              then { x with budget_left := x.budget, next_replenish := tm + x.period }
              else x),
            clock := tm,
            evq := Event.mk (tm + c.period) (EvKind.replenish cid) :: rest,
            ready := if ∃ t ∈ st.tasks, t.component_id = cid ∧ 0 < t.remaining
                     then insertReady st.ready cid else st.ready } := heq
    rw [heq2]
    refine ⟨⟨⟨?_, ?_, ?_, ?_⟩, ⟨?_, ?_, ?_, ?_, ?_⟩, ?_⟩, ?_, ?_⟩
    · rw [map_update_ids st.comps (fun x => x.component_id = cid)
        (fun x => { x with budget_left := x.budget, next_replenish := tm + x.period })
        (fun x => rfl)]
      exact hndc
    · exact hndt
    · intro c' hc'
      obtain ⟨x, hx, hor⟩ := mem_map_update (fun x => x.component_id = cid)
        (fun x => { x with budget_left := x.budget, next_replenish := tm + x.period })
        st.comps c' hc'
      rcases hor with ⟨hp, rfl⟩ | ⟨hp, rfl⟩
      · simpa using hcpb x hx
      · exact hcpb _ hx
    · exact htper
    · intro e he
      rcases List.mem_cons.1 he with rfl | he
      · show tm ≤ tm + c.period
        have h0 := (hcpb c hcmem).1
        linarith
      · exact hmn e he
    · intro e he τ hτ hk
      rcases List.mem_cons.1 he with rfl | he
      · simp at hk
      · exact hq.2.1 e (hsub e he) τ hτ hk
    · exact hndrel
    · exact hndrep
    · intro e he
      rcases List.mem_cons.1 he with rfl | he
      · rw [evRef_replenish]
        exact exists_id_map_update st.comps (fun x => x.component_id = cid)
          (fun x => { x with budget_left := x.budget, next_replenish := tm + x.period })
          (fun x => rfl) cid href
      · have hold := hq.2.2.2.2 e (hsub e he)
        obtain ⟨tm2, k2⟩ := e
        rcases k2 with cid2 | tn2
        · rw [evRef_replenish] at hold ⊢
          exact exists_id_map_update st.comps (fun x => x.component_id = cid)
            (fun x => { x with budget_left := x.budget, next_replenish := tm + x.period })
            (fun x => rfl) cid2 hold
        · rw [evRef_release] at hold ⊢
          exact hold
    · intro c' hc'
      obtain ⟨x, hx, hor⟩ := mem_map_update (fun x => x.component_id = cid)
        (fun x => { x with budget_left := x.budget, next_replenish := tm + x.period })
        st.comps c' hc'
      rcases hor with ⟨hp, rfl⟩ | ⟨hp, rfl⟩
      · constructor
        · simpa using (hcpb x hx).2
        · simp
      · exact hb _ hx
    · exact List.cons_ne_nil _ _
    · rfl
  · have href := hq.2.2.2.2 (Event.mk tm (EvKind.release tn)) hmem
    rw [evRef_release] at href
    obtain ⟨j, hlj, hjmem, hjname⟩ :=
      lookupTask_exists { st with clock := tm, evq := rest } tn href
    obtain ⟨hT, hE, hC, hK⟩ :=
      applyEvent_release_fields { st with clock := tm, evq := rest } tm tn j hlj
    have hT2 : (applyEvent { st with clock := tm, evq := rest }
          (Event.mk tm (EvKind.release tn))).tasks
        = st.tasks.map (fun x =>
            if x.task_name = tn
            then { x with
                   remaining := x.wcet / st.speed, release_time := tm,
                   deadline := tm + x.period,
                   next_release := x.next_release + x.period }
            else x) := hT
    have hE2 : (applyEvent { st with clock := tm, evq := rest }
          (Event.mk tm (EvKind.release tn))).evq
        = Event.mk (j.next_release + j.period) (EvKind.release tn) :: rest := hE
    have hC2 : (applyEvent { st with clock := tm, evq := rest }
          (Event.mk tm (EvKind.release tn))).comps = st.comps := hC
    have hK2 : (applyEvent { st with clock := tm, evq := rest }
          (Event.mk tm (EvKind.release tn))).clock = tm := hK
    have hjmem' : j ∈ st.tasks := hjmem
    have hkk : (Event.mk tm (EvKind.release tn)).kind = EvKind.release j.task_name := by
      rw [hjname]
    have hjrel : tm = j.next_release :=
      hq.2.1 (Event.mk tm (EvKind.release tn)) hmem j hjmem' hkk
    have hndrel' : (tn :: rest.filterMap (fun e => e.kind.relName)).Nodup := hndrel
    have hnotin : tn ∉ rest.filterMap (fun e => e.kind.relName) := (List.nodup_cons.1 hndrel').1
    have hper : (0 : ℚ) ≤ j.period := htper j hjmem'
    refine ⟨⟨⟨?_, ?_, ?_, ?_⟩, ⟨?_, ?_, ?_, ?_, ?_⟩, ?_⟩, ?_, ?_⟩
    · rw [hC2]
      exact hndc
    · rw [hT2, map_update_names st.tasks (fun x => x.task_name = tn)
        (fun x => { x with
          remaining := x.wcet / st.speed, release_time := tm,
          deadline := tm + x.period, next_release := x.next_release + x.period })
        (fun x => rfl)]
      exact hndt
    · rw [hC2]
      exact hcpb
    · rw [hT2]
      intro t ht
      obtain ⟨x, hx, hor⟩ := mem_map_update (fun x => x.task_name = tn)
        (fun x => { x with
          remaining := x.wcet / st.speed, release_time := tm,
          deadline := tm + x.period, next_release := x.next_release + x.period })
        st.tasks t ht
      rcases hor with ⟨hp, rfl⟩ | ⟨hp, rfl⟩
      · simpa using htper x hx
      · exact htper _ hx
    · rw [hE2, hK2]
      intro e he
      rcases List.mem_cons.1 he with rfl | he
      · show tm ≤ j.next_release + j.period
        rw [← hjrel]
        linarith
      · exact hmn e he
    · rw [hE2, hT2]
      intro e he τ hτ hk
      obtain ⟨x, hx, hor⟩ := mem_map_update (fun x => x.task_name = tn)
        (fun x => { x with
          remaining := x.wcet / st.speed, release_time := tm,
          deadline := tm + x.period, next_release := x.next_release + x.period })
        st.tasks τ hτ
      rcases List.mem_cons.1 he with rfl | he
      · rcases hor with ⟨hp, rfl⟩ | ⟨hp, rfl⟩
        · have hxj := key_nodup_eq (fun t => t.task_name) st.tasks hndt x j hx hjmem'
            (by show x.task_name = j.task_name; rw [hp, hjname])
          show j.next_release + j.period = x.next_release + x.period
          rw [hxj]
        · have hkk2 : EvKind.release tn = EvKind.release τ.task_name := hk
          injection hkk2 with hkk2
          exact absurd hkk2.symm hp
      · rcases hor with ⟨hp, rfl⟩ | ⟨hp, rfl⟩
        · exfalso
          apply hnotin
          refine List.mem_filterMap.2 ⟨e, he, ?_⟩
          have hkk2 : e.kind = EvKind.release x.task_name := hk
          rw [hkk2, hp]
          rfl
        · exact hq.2.1 e (hsub e he) _ hx hk
    · rw [hE2]
      exact hndrel
    · rw [hE2]
      exact hndrep
    · rw [hE2]
      intro e he
      rcases List.mem_cons.1 he with rfl | he
      · rw [evRef_release, hT2]
        exact exists_name_map_update st.tasks (fun x => x.task_name = tn)
          (fun x => { x with
            remaining := x.wcet / st.speed, release_time := tm,
            deadline := tm + x.period, next_release := x.next_release + x.period })
          (fun x => rfl) tn ⟨j, hjmem', hjname⟩
      · have hold := hq.2.2.2.2 e (hsub e he)
        obtain ⟨tm2, k2⟩ := e
        rcases k2 with cid2 | tn2
        · rw [evRef_replenish] at hold ⊢
          rw [hC2]
          exact hold
        · rw [evRef_release] at hold ⊢
          rw [hT2]
          exact exists_name_map_update st.tasks (fun x => x.task_name = tn)
            (fun x => { x with
              remaining := x.wcet / st.speed, release_time := tm,
              deadline := tm + x.period, next_release := x.next_release + x.period })
            (fun x => rfl) tn2 hold
    · intro c' hc'
      rw [hC2] at hc'
      exact hb c' hc'
    · rw [hE2]
      exact List.cons_ne_nil _ _
    · rw [hK2]

theorem run_until_bounds (st1 : SimState) (horizon : ℚ) (c : SComp) (τ : STask)
    (hinv : Inv st1) (hne : st1.evq ≠ []) (hsel : selectPair st1 = some (c, τ)) :
    st1.clock
        ≤ min (min (st1.clock + c.budget_left) (st1.clock + τ.remaining)) (nextEvtTime st1 horizon)
    ∧ min (min (st1.clock + c.budget_left) (st1.clock + τ.remaining)) (nextEvtTime st1 horizon)
        ≤ st1.clock + c.budget_left
    ∧ ∀ e ∈ st1.evq,
        min (min (st1.clock + c.budget_left) (st1.clock + τ.remaining)) (nextEvtTime st1 horizon)
          ≤ e.time := by
  obtain ⟨hcm, hready, hbud, hτm, hτrem⟩ := selectPair_props st1 c τ hsel
  obtain ⟨m, hm⟩ := minTime?_isSome st1.evq hne
  have hnext : nextEvtTime st1 horizon = m := by rw [nextEvtTime, hm]; rfl
  obtain ⟨e0, he0, he0t⟩ := minTime?_mem st1.evq m hm
  have hmclock : st1.clock ≤ m := by
    rw [← he0t]
    exact hinv.2.1.1 e0 he0
  refine ⟨le_min (le_min (by linarith) (by linarith)) (by rw [hnext]; exact hmclock),
    le_trans (min_le_left _ _) (min_le_left _ _), ?_⟩
  intro e he
  have h1 : nextEvtTime st1 horizon ≤ e.time := by
    rw [hnext]
    exact minTime?_le st1.evq m hm e he
  exact le_trans (min_le_right _ _) h1

theorem Inv_runPhase (st1 : SimState) (horizon : ℚ) (c : SComp) (τ : STask)
    (hinv : Inv st1) (hne : st1.evq ≠ []) (hsel : selectPair st1 = some (c, τ)) :
    Inv (runPhase st1 horizon c τ) := by
  obtain ⟨hlow, hupp, hqmin⟩ := run_until_bounds st1 horizon c τ hinv hne hsel
  obtain ⟨hcm, hready, hbud, hτm, hτrem⟩ := selectPair_props st1 c τ hsel
  obtain ⟨⟨hndc, hndt, hcpb, htper⟩, hq, hb⟩ := hinv
  have hcomps : (runPhase st1 horizon c τ).comps
      = st1.comps.map (fun x => if x.component_id = c.component_id then
          budgetUpd (min (min (st1.clock + c.budget_left) (st1.clock + τ.remaining))
            (nextEvtTime st1 horizon) - st1.clock) x else x) := by
    simp only [runPhase]
  have htasks : (runPhase st1 horizon c τ).tasks
      = st1.tasks.map (fun x => if x.task_name = τ.task_name then
          taskUpd (min (min (st1.clock + c.budget_left) (st1.clock + τ.remaining))
              (nextEvtTime st1 horizon) - st1.clock)
            (min (min (st1.clock + c.budget_left) (st1.clock + τ.remaining))
              (nextEvtTime st1 horizon)) x else x) := by
    simp only [runPhase]
  have hclock : (runPhase st1 horizon c τ).clock
      = min (min (st1.clock + c.budget_left) (st1.clock + τ.remaining))
          (nextEvtTime st1 horizon) := by
    simp only [runPhase]
  have hevq : (runPhase st1 horizon c τ).evq = st1.evq := by
    simp only [runPhase]
  set R := min (min (st1.clock + c.budget_left) (st1.clock + τ.remaining))
    (nextEvtTime st1 horizon) with hR
  have hbc := hb c hcm
  refine ⟨⟨?_, ?_, ?_, ?_⟩, ⟨?_, ?_, ?_, ?_, ?_⟩, ?_⟩
  · rw [hcomps, map_update_ids st1.comps (fun x => x.component_id = c.component_id)
      (budgetUpd (R - st1.clock)) (fun x => rfl)]
    exact hndc
  · rw [htasks, map_update_names st1.tasks (fun x => x.task_name = τ.task_name)
      (taskUpd (R - st1.clock) R) (fun x => taskUpd_name _ _ x)]
    exact hndt
  · rw [hcomps]
    intro c' hc'
    obtain ⟨x, hx, hor⟩ := mem_map_update (fun x => x.component_id = c.component_id)
      (budgetUpd (R - st1.clock)) st1.comps c' hc'
    rcases hor with ⟨hp, rfl⟩ | ⟨hp, rfl⟩
    · simpa [budgetUpd] using hcpb x hx
    · exact hcpb _ hx
  · rw [htasks]
    intro t ht
    obtain ⟨x, hx, hor⟩ := mem_map_update (fun x => x.task_name = τ.task_name)
      (taskUpd (R - st1.clock) R) st1.tasks t ht
    rcases hor with ⟨hp, rfl⟩ | ⟨hp, rfl⟩
    · rw [(taskUpd_static _ _ x).2.1]
      exact htper x hx
    · exact htper _ hx
  · rw [hevq, hclock]
    exact hqmin
  · rw [hevq, htasks]
    intro e he τ' hτ' hk
    obtain ⟨x, hx, hor⟩ := mem_map_update (fun x => x.task_name = τ.task_name)
      (taskUpd (R - st1.clock) R) st1.tasks τ' hτ'
    rcases hor with ⟨hp, rfl⟩ | ⟨hp, rfl⟩
    · rw [taskUpd_name] at hk
      rw [(taskUpd_static _ _ x).2.2]
      exact hq.2.1 e he x hx hk
    · exact hq.2.1 e he _ hx hk
  · rw [hevq]
    exact hq.2.2.1
  · rw [hevq]
    exact hq.2.2.2.1
  · rw [hevq]
    intro e he
    have hold := hq.2.2.2.2 e he
    obtain ⟨tm2, k2⟩ := e
    rcases k2 with cid2 | tn2
    · rw [evRef_replenish] at hold ⊢
      rw [hcomps]
      exact exists_id_map_update st1.comps (fun x => x.component_id = c.component_id)
        (budgetUpd (R - st1.clock)) (fun x => rfl) cid2 hold
    · rw [evRef_release] at hold ⊢
      rw [htasks]
      exact exists_name_map_update st1.tasks (fun x => x.task_name = τ.task_name)
        (taskUpd (R - st1.clock) R) (fun x => taskUpd_name _ _ x) tn2 hold
  · intro c' hc'
    rw [hcomps] at hc'
    obtain ⟨x, hx, hor⟩ := mem_map_update (fun x => x.component_id = c.component_id)
      (budgetUpd (R - st1.clock)) st1.comps c' hc'
    rcases hor with ⟨hp, rfl⟩ | ⟨hp, rfl⟩
    · have hxc : x = c := key_nodup_eq (fun z => z.component_id) st1.comps hndc x c hx hcm hp
      subst hxc
      simp only [budgetUpd]
      constructor
      · show (0 : ℚ) ≤ x.budget_left - (R - st1.clock)
        have hb1 := hb x hx
        linarith
      · show x.budget_left - (R - st1.clock) ≤ x.budget
        have hb1 := hb x hx
        linarith
    · exact hb _ hx

theorem Inv_simStep (horizon : ℚ) (st : SimState) (hinv : Inv st) : Inv (simStep horizon st) := by
  rcases hpop : popMin st.evq with _ | p
  · rw [simStep, hpop]
    exact hinv
  · obtain ⟨ev, rest⟩ := p
    obtain ⟨hinv1, hne1, _⟩ := Inv_applyEvent st ev rest hinv hpop
    rw [simStep, hpop]
    simp only
    by_cases hr : (applyEvent { st with clock := ev.time, evq := rest } ev).ready = []
    · rw [if_pos hr]
      exact hinv1
    · rw [if_neg hr]
      rcases hsel : selectPair (applyEvent { st with clock := ev.time, evq := rest } ev)
          with _ | cτ
      · exact hinv1
      · obtain ⟨c, τ⟩ := cτ
        exact Inv_runPhase _ horizon c τ hinv1 hne1 hsel

theorem Inv_simRun (horizon : ℚ) (n : ℕ) (st : SimState) (hinv : Inv st) :
    Inv (simRun horizon n st) := by
  induction n generalizing st with
  | zero => exact hinv
  | succ n ih =>
    rw [simRun]
    by_cases hg : simGuard horizon st
    · rw [if_pos hg]
      exact ih _ (Inv_simStep horizon st hinv)
    · rw [if_neg hg]
      exact hinv

theorem stepGrant_pop (horizon : ℚ) (st : SimState) (cid : String) (ev : Event)
    (rest : List Event) (hpop : popMin st.evq = some (ev, rest)) (c : SComp) (τ : STask)
    (hr : (applyEvent { st with clock := ev.time, evq := rest } ev).ready ≠ [])
    (hsel : selectPair (applyEvent { st with clock := ev.time, evq := rest } ev) = some (c, τ)) :
    stepGrant horizon st cid
      = if c.component_id = cid then
          min (min ((applyEvent { st with clock := ev.time, evq := rest } ev).clock
                + c.budget_left)
              ((applyEvent { st with clock := ev.time, evq := rest } ev).clock + τ.remaining))
            (nextEvtTime (applyEvent { st with clock := ev.time, evq := rest } ev) horizon)
          - (applyEvent { st with clock := ev.time, evq := rest } ev).clock
        else 0 := by
  rw [stepGrant, hpop]
  simp only
  rw [if_neg hr, hsel]

theorem runPhase_budget (st1 : SimState) (horizon : ℚ) (c : SComp) (τ : STask) (cid : String)
    (c0 : SComp) (hl : lookupComp st1 cid = some c0) :
    lookupComp (runPhase st1 horizon c τ) cid
      = some (budgetUpd (if c.component_id = cid then
          min (min (st1.clock + c.budget_left) (st1.clock + τ.remaining))
            (nextEvtTime st1 horizon) - st1.clock else 0) c0) := by
  have hcomps : (runPhase st1 horizon c τ).comps
      = st1.comps.map (fun x => if x.component_id = c.component_id then
          budgetUpd (min (min (st1.clock + c.budget_left) (st1.clock + τ.remaining))
            (nextEvtTime st1 horizon) - st1.clock) x else x) := by
    simp only [runPhase]
  have hl2 : st1.comps.find? (fun x => decide (x.component_id = cid)) = some c0 := hl
  rw [lookupComp, hcomps]
  by_cases hc : c.component_id = cid
  · rw [if_pos hc, hc]
    rw [find?_mapUpdate (fun x => x.component_id)
      (budgetUpd (min (min (st1.clock + c.budget_left) (st1.clock + τ.remaining))
        (nextEvtTime st1 horizon) - st1.clock)) (fun x => rfl) cid st1.comps]
    rw [hl2]
    rfl
  · rw [if_neg hc]
    rw [find?_mapUpdate_other (fun x => x.component_id)
      (budgetUpd (min (min (st1.clock + c.budget_left) (st1.clock + τ.remaining))
        (nextEvtTime st1 horizon) - st1.clock)) (fun x => rfl) cid c.component_id
      (fun h => hc h.symm) st1.comps]
    rw [hl2]
    have hid : budgetUpd 0 c0 = c0 := by
      simp [budgetUpd]
    rw [hid]

theorem stepGrant_nonneg (horizon : ℚ) (st : SimState) (cid : String) (hinv : Inv st) :
    0 ≤ stepGrant horizon st cid := by
  rcases hpop : popMin st.evq with _ | p
  · rw [stepGrant, hpop]
  · obtain ⟨ev, rest⟩ := p
    obtain ⟨hinv1, hne1, _⟩ := Inv_applyEvent st ev rest hinv hpop
    by_cases hr : (applyEvent { st with clock := ev.time, evq := rest } ev).ready = []
    · have hg : stepGrant horizon st cid = 0 := by
        rw [stepGrant, hpop]
        simp only
        rw [if_pos hr]
      rw [hg]
    · rcases hsel : selectPair (applyEvent { st with clock := ev.time, evq := rest } ev)
          with _ | cτ
      · have hg : stepGrant horizon st cid = 0 := by
          rw [stepGrant, hpop]
          simp only
          rw [if_neg hr, hsel]
        rw [hg]
      · obtain ⟨cS, τS⟩ := cτ
        rw [stepGrant_pop horizon st cid ev rest hpop cS τS hr hsel]
        obtain ⟨hlow, _, _⟩ := run_until_bounds _ horizon cS τS hinv1 hne1 hsel
        split
        · linarith
        · exact le_refl 0

theorem simStep_budget_nonrep (horizon : ℚ) (st : SimState) (cid : String) (c : SComp)
    (hnr : ∀ ev rest, popMin st.evq = some (ev, rest) → ev.kind ≠ EvKind.replenish cid)
    (hl : lookupComp st cid = some c) :
    ∃ c', lookupComp (simStep horizon st) cid = some c'
      ∧ c'.budget = c.budget
      ∧ c'.budget_left = c.budget_left - stepGrant horizon st cid := by
  rcases hpop : popMin st.evq with _ | p
  · rw [simStep, stepGrant, hpop]
    exact ⟨c, hl, rfl, by simp⟩
  · obtain ⟨ev, rest⟩ := p
    have hA : lookupComp (applyEvent { st with clock := ev.time, evq := rest } ev) cid
        = some c := by
      obtain ⟨tm, k⟩ := ev
      rcases k with cid2 | tn
      · have hne2 : cid2 ≠ cid := fun h => hnr _ _ hpop (by rw [h])
        rcases hlc2 : lookupComp { st with clock := tm, evq := rest } cid2 with _ | c2
        · rw [applyEvent_replenish_none _ _ _ hlc2]
          exact hl
        · have heq2 : applyEvent { st with clock := tm, evq := rest }
                (Event.mk tm (EvKind.replenish cid2))
              = { st with
                  comps := st.comps.map (fun x =>
                    if x.component_id = cid2
                    then { x with budget_left := x.budget, next_replenish := tm + x.period }
                    else x),
                  clock := tm,
                  evq := Event.mk (tm + c2.period) (EvKind.replenish cid2) :: rest,
                  ready := if ∃ t ∈ st.tasks, t.component_id = cid2 ∧ 0 < t.remaining
                           then insertReady st.ready cid2 else st.ready } :=
            applyEvent_replenish_eq { st with clock := tm, evq := rest } tm cid2 c2 hlc2
          rw [heq2, lookupComp]
          show (st.comps.map (fun x =>
              if x.component_id = cid2
              then { x with budget_left := x.budget, next_replenish := tm + x.period }
              else x)).find? (fun x => decide (x.component_id = cid)) = some c
          rw [find?_mapUpdate_other (fun x => x.component_id)
            (fun x => { x with budget_left := x.budget, next_replenish := tm + x.period })
            (fun x => rfl) cid cid2 (fun h => hne2 h.symm) st.comps]
          exact hl
      · rcases hlt : lookupTask { st with clock := tm, evq := rest } tn with _ | j
        · rw [applyEvent_release_none _ _ _ hlt]
          exact hl
        · have hC2 : (applyEvent { st with clock := tm, evq := rest }
                (Event.mk tm (EvKind.release tn))).comps = st.comps :=
            (applyEvent_release_fields { st with clock := tm, evq := rest } tm tn j hlt).2.2.1
          rw [lookupComp, hC2]
          exact hl
    rw [simStep, hpop]
    simp only
    by_cases hr : (applyEvent { st with clock := ev.time, evq := rest } ev).ready = []
    · rw [if_pos hr]
      have hg : stepGrant horizon st cid = 0 := by
        rw [stepGrant, hpop]
        simp only
        rw [if_pos hr]
      rw [hg]
      exact ⟨c, hA, rfl, by ring⟩
    · rw [if_neg hr]
      rcases hsel : selectPair (applyEvent { st with clock := ev.time, evq := rest } ev)
          with _ | cτ
      · have hg : stepGrant horizon st cid = 0 := by
          rw [stepGrant, hpop]
          simp only
          rw [if_neg hr, hsel]
        rw [hg]
        exact ⟨c, hA, rfl, by ring⟩
      · obtain ⟨cS, τS⟩ := cτ
        rw [stepGrant_pop horizon st cid ev rest hpop cS τS hr hsel]
        have hrp := runPhase_budget (applyEvent { st with clock := ev.time, evq := rest } ev)
          horizon cS τS cid c hA
        exact ⟨_, hrp, rfl, rfl⟩

theorem simStep_budget_rep (horizon : ℚ) (st : SimState) (cid : String) (c : SComp)
    (ev : Event) (rest : List Event)
    (hpop : popMin st.evq = some (ev, rest)) (hk : ev.kind = EvKind.replenish cid)
    (hl : lookupComp st cid = some c) :
    ∃ c', lookupComp (simStep horizon st) cid = some c'
      ∧ c'.budget = c.budget
      ∧ c'.budget_left = c.budget - stepGrant horizon st cid := by
  obtain ⟨tm, k⟩ := ev
  have hk2 : k = EvKind.replenish cid := hk
  subst hk2
  have hlc : lookupComp { st with clock := tm, evq := rest } cid = some c := hl
  have hA : lookupComp (applyEvent { st with clock := tm, evq := rest }
        (Event.mk tm (EvKind.replenish cid))) cid
      = some { c with budget_left := c.budget, next_replenish := tm + c.period } := by
    have heq2 : applyEvent { st with clock := tm, evq := rest }
          (Event.mk tm (EvKind.replenish cid))
        = { st with
            comps := st.comps.map (fun x =>
              if x.component_id = cid
              then { x with budget_left := x.budget, next_replenish := tm + x.period }
              else x),
            clock := tm,
            evq := Event.mk (tm + c.period) (EvKind.replenish cid) :: rest,
            ready := if ∃ t ∈ st.tasks, t.component_id = cid ∧ 0 < t.remaining
                     then insertReady st.ready cid else st.ready } :=
      applyEvent_replenish_eq { st with clock := tm, evq := rest } tm cid c hlc
    rw [heq2, lookupComp]
    show (st.comps.map (fun x =>
        if x.component_id = cid
        then { x with budget_left := x.budget, next_replenish := tm + x.period }
        else x)).find? (fun x => decide (x.component_id = cid))
      = some { c with budget_left := c.budget, next_replenish := tm + c.period }
    rw [find?_mapUpdate (fun x => x.component_id)
      (fun x => { x with budget_left := x.budget, next_replenish := tm + x.period })
      (fun x => rfl) cid st.comps]
    have hl2 : st.comps.find? (fun x => decide (x.component_id = cid)) = some c := hl
    rw [hl2]
    rfl
  rw [simStep, hpop]
  simp only
  by_cases hr : (applyEvent { st with clock := tm, evq := rest }
      (Event.mk tm (EvKind.replenish cid))).ready = []
  · rw [if_pos hr]
    have hg : stepGrant horizon st cid = 0 := by
      rw [stepGrant, hpop]
      simp only
      rw [if_pos hr]
    rw [hg]
    refine ⟨_, hA, rfl, ?_⟩
    show c.budget = c.budget - 0
    ring
  · rw [if_neg hr]
    rcases hsel : selectPair (applyEvent { st with clock := tm, evq := rest }
        (Event.mk tm (EvKind.replenish cid))) with _ | cτ
    · have hg : stepGrant horizon st cid = 0 := by
        rw [stepGrant, hpop]
        simp only
        rw [if_neg hr, hsel]
      rw [hg]
      refine ⟨_, hA, rfl, ?_⟩
      show c.budget = c.budget - 0
      ring
    · obtain ⟨cS, τS⟩ := cτ
      rw [stepGrant_pop horizon st cid (Event.mk tm (EvKind.replenish cid)) rest hpop cS τS
        hr hsel]
      have hrp := runPhase_budget (applyEvent { st with clock := tm, evq := rest }
          (Event.mk tm (EvKind.replenish cid)))
        horizon cS τS cid { c with budget_left := c.budget, next_replenish := tm + c.period } hA
      exact ⟨_, hrp, rfl, rfl⟩

theorem simRun_grants (horizon : ℚ) (cid : String) :
    ∀ (n : ℕ) (st : SimState) (c : SComp),
      lookupComp st cid = some c →
      (∀ k, k < n → ¬ popsReplenish horizon (simRun horizon k st) cid) →
      ∃ c', lookupComp (simRun horizon n st) cid = some c'
        ∧ c'.budget = c.budget
        ∧ c'.budget_left = c.budget_left - grantsSum horizon cid n st := by
  intro n
  induction n with
  | zero =>
    intro st c hl _
    exact ⟨c, hl, rfl, by rw [grantsSum]; ring⟩
  | succ n ih =>
    intro st c hl hnr
    by_cases hg : simGuard horizon st
    · have h0 : ¬ popsReplenish horizon st cid := hnr 0 (Nat.succ_pos n)
      have hstep : ∀ ev rest, popMin st.evq = some (ev, rest) →
          ev.kind ≠ EvKind.replenish cid := by
        intro ev rest hpop hk
        exact h0 ⟨hg, (ev, rest), hpop, hk⟩
      obtain ⟨c1, hl1, hb1, hbl1⟩ := simStep_budget_nonrep horizon st cid c hstep hl
      have hnr2 : ∀ k, k < n →
          ¬ popsReplenish horizon (simRun horizon k (simStep horizon st)) cid := by
        intro k hk
        have h2 := hnr (k + 1) (Nat.succ_lt_succ hk)
        rw [simRun, if_pos hg] at h2
        exact h2
      obtain ⟨c', hl', hb', hbl'⟩ := ih (simStep horizon st) c1 hl1 hnr2
      rw [simRun, if_pos hg]
      refine ⟨c', hl', by rw [hb', hb1], ?_⟩
      rw [hbl', hbl1]
      rw [grantsSum, if_pos hg]
      ring
    · rw [simRun, if_neg hg]
      refine ⟨c, hl, rfl, ?_⟩
      rw [grantsSum, if_neg hg]
      ring

/-- The witness configuration is well formed. -/
theorem wConfig_wf : WFConfig [wComp] [wTask] := by
  refine ⟨by simp, by simp, ?_, ?_⟩
  · intro c hc
    rw [List.mem_singleton] at hc
    subst hc
    norm_num [wComp]
  · intro t ht
    rw [List.mem_singleton] at ht
    subst ht
    norm_num [wTask]

/-- C2: throughout a run of `simulate_core` from a well-formed configuration
every component's `budget_left` stays within [0, Q] (first conjunct);
processing a Replenish event of a component resets its `budget_left` to
exactly its budget Q, and afterwards every queued replenish event of that
component — there is one, the freshly pushed one — is scheduled exactly one
period P after the one being processed, so successive replenish events of a
component are spaced exactly P apart (second conjunct); an iteration that
does not pop a replenish event of the component never increases its
`budget_left` (third conjunct); and over any window of n iterations that
starts by popping a replenish of the component and pops no further
replenish of it, the execution time granted to the component's tasks plus
the budget left unused equals Q exactly (fourth conjunct). -/
theorem budget_conservation (speed horizon : ℚ) (sched : String)
    (comps0 : List SComp) (tasks0 : List STask) (cid : String) (n : ℕ) :
    (WFConfig comps0 tasks0 →
      ∀ c ∈ (simRun horizon n (initState speed sched comps0 tasks0)).comps,
        0 ≤ c.budget_left ∧ c.budget_left ≤ c.budget)
    ∧ (∀ st ev rest c₀, Inv st → popMin st.evq = some (ev, rest) →
        ev.kind = EvKind.replenish cid → lookupComp st cid = some c₀ →
        (lookupComp (applyEvent { st with clock := ev.time, evq := rest } ev) cid).map
            (fun x => x.budget_left) = some c₀.budget
          ∧ Event.mk (ev.time + c₀.period) (EvKind.replenish cid)
              ∈ (applyEvent { st with clock := ev.time, evq := rest } ev).evq
          ∧ ∀ e ∈ (applyEvent { st with clock := ev.time, evq := rest } ev).evq,
              e.kind = EvKind.replenish cid → e.time = ev.time + c₀.period)
    ∧ (∀ st c c', Inv st →
        (∀ ev rest, popMin st.evq = some (ev, rest) → ev.kind ≠ EvKind.replenish cid) →
        lookupComp st cid = some c → lookupComp (simStep horizon st) cid = some c' →
        c'.budget_left ≤ c.budget_left)
    ∧ (∀ st c, 1 ≤ n → popsReplenish horizon st cid →
        (∀ k, 1 ≤ k → k < n → ¬ popsReplenish horizon (simRun horizon k st) cid) →
        lookupComp st cid = some c →
        ∃ c', lookupComp (simRun horizon n st) cid = some c'
          ∧ grantsSum horizon cid n st + c'.budget_left = c.budget) := by
  refine ⟨?_, ?_, ?_, ?_⟩
  · intro hwf c hc
    exact (Inv_simRun horizon n _ (Inv_initState speed sched comps0 tasks0 hwf)).2.2 c hc
  · intro st ev rest c₀ hinv hpop hk hl
    obtain ⟨tm, k⟩ := ev
    have hk2 : k = EvKind.replenish cid := hk
    subst hk2
    have hlc : lookupComp { st with clock := tm, evq := rest } cid = some c₀ := hl
    have heq2 : applyEvent { st with clock := tm, evq := rest }
          (Event.mk tm (EvKind.replenish cid))
        = { st with
            comps := st.comps.map (fun x =>
              if x.component_id = cid
              then { x with budget_left := x.budget, next_replenish := tm + x.period }
              else x),
            clock := tm,
            evq := Event.mk (tm + c₀.period) (EvKind.replenish cid) :: rest,
            ready := if ∃ t ∈ st.tasks, t.component_id = cid ∧ 0 < t.remaining
                     then insertReady st.ready cid else st.ready } :=
      applyEvent_replenish_eq { st with clock := tm, evq := rest } tm cid c₀ hlc
    have hA : lookupComp (applyEvent { st with clock := tm, evq := rest }
          (Event.mk tm (EvKind.replenish cid))) cid
        = some { c₀ with budget_left := c₀.budget, next_replenish := tm + c₀.period } := by
      rw [heq2, lookupComp]
      show (st.comps.map (fun x =>
          if x.component_id = cid
          then { x with budget_left := x.budget, next_replenish := tm + x.period }
          else x)).find? (fun x => decide (x.component_id = cid))
        = some { c₀ with budget_left := c₀.budget, next_replenish := tm + c₀.period }
      rw [find?_mapUpdate (fun x => x.component_id)
        (fun x => { x with budget_left := x.budget, next_replenish := tm + x.period })
        (fun x => rfl) cid st.comps]
      have hl2 : st.comps.find? (fun x => decide (x.component_id = cid)) = some c₀ := hl
      rw [hl2]
      rfl
    refine ⟨by rw [hA]; rfl, ?_, ?_⟩
    · rw [heq2]
      exact List.mem_cons_self _ _
    · rw [heq2]
      intro e he hek
      rcases List.mem_cons.1 he with rfl | he
      · rfl
      · exfalso
        obtain ⟨hmem, hsub, hmn, hndrel, hndrep⟩ :=
          popMin_facts st (Event.mk tm (EvKind.replenish cid)) rest hinv.2.1 hpop
        have hndrep2 : (cid :: rest.filterMap (fun x => x.kind.repName)).Nodup := hndrep
        have hnotin : cid ∉ rest.filterMap (fun x => x.kind.repName) :=
          (List.nodup_cons.1 hndrep2).1
        apply hnotin
        refine List.mem_filterMap.2 ⟨e, he, ?_⟩
        rw [hek]
        rfl
  · intro st c c' hinv hnr hl hl'
    obtain ⟨c2, hl2, hb2, hbl2⟩ := simStep_budget_nonrep horizon st cid c hnr hl
    have hg0 := stepGrant_nonneg horizon st cid hinv
    rw [hl'] at hl2
    injection hl2 with h
    rw [← h] at hbl2
    rw [hbl2]
    linarith
  · intro st c hn hpr hnr hl
    obtain ⟨m, rfl⟩ : ∃ m, n = m + 1 := ⟨n - 1, by omega⟩
    obtain ⟨hg, p, hpop, hpk⟩ := hpr
    obtain ⟨ev, rest⟩ := p
    obtain ⟨c1, hl1, hb1, hbl1⟩ := simStep_budget_rep horizon st cid c ev rest hpop hpk hl
    have hnr2 : ∀ k, k < m →
        ¬ popsReplenish horizon (simRun horizon k (simStep horizon st)) cid := by
      intro k hk
      have h2 := hnr (k + 1) (by omega) (by omega)
      rw [simRun, if_pos hg] at h2
      exact h2
    obtain ⟨c', hl', hb', hbl'⟩ := simRun_grants horizon cid m (simStep horizon st) c1 hl1 hnr2
    rw [simRun, if_pos hg]
    refine ⟨c', hl', ?_⟩
    rw [grantsSum, if_pos hg]
    rw [hbl', hbl1]
    ring

end DRTS
